import Mathlib

/-!
Verification of the cryptoarb arbitrage engine (`arbitrage_engine.py`,
`paper_trader.py`) against its natural-language specification.

Modelling conventions:
* Python floats are embedded as exact rationals (`ℚ`).
* The price table (`latest_prices`) is an association list from pair symbol
  to a quote record whose `price` field may be absent (`data.get("price")`).
* The Bellman-Ford edge weight `-ln(rate * (1 - fee))` is represented by the
  positive multiplier `rate * (1 - fee)` itself: `x ↦ exp (-x)` is a strictly
  order-reversing bijection, so the relaxation test
  `dist u + w < dist v` is represented exactly by `mdist u * m > mdist v`
  with `mdist = exp (-dist)` (`dist = +∞` becomes `mdist = 0`,
  `dist start = 0` becomes `mdist start = 1`).  Every comparison made by the
  algorithm is preserved exactly by this representation.
* Python's `set` of currencies has no specified iteration order; the
  detection routine therefore takes the start-vertex enumeration `order` as
  an explicit parameter (a permutation of the accumulated currency list).
-/

namespace CryptoArb

/-- A price-table entry: a Python dict that is expected to carry a `"price"`
key, which may be absent. -/
structure Quote where
  price : Option ℚ
deriving DecidableEq

/-- The shared `latest_prices` dictionary: pair symbol to quote, in insertion
order. -/
abbrev Table := List (String × Quote)

/-- Dictionary lookup `latest_prices.get(sym)` (first binding wins). -/
def lookupTable (tbl : Table) (sym : String) : Option Quote :=
  (tbl.find? (fun e => e.1 = sym)).map (fun e => e.2)

/-- Key-membership test `sym in latest_prices`. -/
def containsSym (tbl : Table) (sym : String) : Bool :=
  (lookupTable tbl sym).isSome

/-- The per-leg trading fee `self.fee_rate = 0.001`. -/
def fee_rate : ℚ := 1 / 1000

/-- Transcription of `ArbitrageEngine.get_rate(base, quote, pair_symbol)`:
each `bind` models an early `return None` on missing data. -/
def get_rate (tbl : Table) (base quote pair_symbol : String) : Option ℚ :=
  (lookupTable tbl pair_symbol).bind (fun data =>
    data.price.bind (fun price =>
      if pair_symbol = base ++ quote then
        some price
      else if pair_symbol = quote ++ base then
        if price ≠ 0 then some (1 / price) else none
      else none))

/-- The pair-symbol selection used at every `get_rate` call site:
`pair = f"{X}{Y}" if f"{X}{Y}" in latest_prices else f"{Y}{X}"`. -/
def choosePair (tbl : Table) (x y : String) : String :=
  if containsSym tbl (x ++ y) then x ++ y else y ++ x

/-- Rate resolution from `base` to `quote` as performed by the engine:
select the stored orientation, then invert if needed. -/
def resolveRate (tbl : Table) (base quote : String) : Option ℚ :=
  get_rate tbl base quote (choosePair tbl base quote)

theorem lookupTable_of_contains (tbl : Table) (sym : String)
    (h : containsSym tbl sym = true) : ∃ q, lookupTable tbl sym = some q := by
  unfold containsSym at h
  cases hq : lookupTable tbl sym with
  | none => rw [hq] at h; simp [Option.isSome] at h
  | some q => exact ⟨q, rfl⟩

theorem contains_of_lookup (tbl : Table) (sym : String) (q : Quote)
    (h : lookupTable tbl sym = some q) : containsSym tbl sym = true := by
  unfold containsSym
  rw [h]
  rfl

theorem not_contains_iff (tbl : Table) (sym : String) :
    containsSym tbl sym = false ↔ lookupTable tbl sym = none := by
  unfold containsSym
  cases lookupTable tbl sym <;> simp [Option.isSome]

/-- When the direct symbol is stored, `resolveRate` returns its price
field. -/
theorem resolveRate_direct (tbl : Table) (X Y : String) (q : Quote)
    (hd : lookupTable tbl (X ++ Y) = some q) :
    resolveRate tbl X Y = q.price := by
  unfold resolveRate choosePair
  rw [contains_of_lookup tbl (X ++ Y) q hd]
  simp only [if_true]
  unfold get_rate
  rw [hd]
  simp only [Option.some_bind]
  cases q.price <;> simp

/-- When only the inverse symbol is stored, `resolveRate` returns the
guarded reciprocal of its price field. -/
theorem resolveRate_inverse (tbl : Table) (X Y : String) (q : Quote)
    (hd : lookupTable tbl (X ++ Y) = none)
    (hi : lookupTable tbl (Y ++ X) = some q) :
    resolveRate tbl X Y
      = q.price.bind (fun p => if p ≠ 0 then some (1 / p) else none) := by
  have hne : Y ++ X ≠ X ++ Y := by
    intro he
    rw [he, hd] at hi
    exact Option.noConfusion hi
  unfold resolveRate choosePair
  rw [(not_contains_iff tbl (X ++ Y)).mpr hd]
  simp only [Bool.false_eq_true, if_false]
  unfold get_rate
  rw [hi]
  simp only [Option.some_bind]
  cases q.price <;> simp [hne]

/-- When neither orientation is stored, `resolveRate` returns absent. -/
theorem resolveRate_nothing (tbl : Table) (X Y : String)
    (hd : lookupTable tbl (X ++ Y) = none)
    (hi : lookupTable tbl (Y ++ X) = none) :
    resolveRate tbl X Y = none := by
  unfold resolveRate choosePair
  rw [(not_contains_iff tbl (X ++ Y)).mpr hd]
  simp only [Bool.false_eq_true, if_false]
  unfold get_rate
  rw [hi]
  rfl

/-- C3: the rate resolver's full case analysis.  Direct symbol present with
price `p`: returns `p`.  Only the inverse present with price `p ≠ 0`:
returns `1 / p`.  Absent when: neither symbol exists, the found quote's
price field is absent (either orientation), or only the inverse exists with
price exactly `0` (the division is guarded, so no division-by-zero occurs). -/
theorem resolver_cases (tbl : Table) (b q : String) :
    (∀ p : ℚ, lookupTable tbl (b ++ q) = some ⟨some p⟩ →
      resolveRate tbl b q = some p)
    ∧ (∀ p : ℚ, lookupTable tbl (b ++ q) = none →
        lookupTable tbl (q ++ b) = some ⟨some p⟩ → p ≠ 0 →
        resolveRate tbl b q = some (1 / p))
    ∧ (lookupTable tbl (b ++ q) = none → lookupTable tbl (q ++ b) = none →
        resolveRate tbl b q = none)
    ∧ (lookupTable tbl (b ++ q) = some ⟨none⟩ → resolveRate tbl b q = none)
    ∧ (lookupTable tbl (b ++ q) = none →
        lookupTable tbl (q ++ b) = some ⟨none⟩ → resolveRate tbl b q = none)
    ∧ (lookupTable tbl (b ++ q) = none →
        lookupTable tbl (q ++ b) = some ⟨some 0⟩ →
        resolveRate tbl b q = none) := by
  refine ⟨?_, ?_, ?_, ?_, ?_, ?_⟩
  · intro p h
    rw [resolveRate_direct tbl b q ⟨some p⟩ h]
  · intro p hd hi hp
    rw [resolveRate_inverse tbl b q ⟨some p⟩ hd hi]
    simp [hp]
  · intro hd hi
    exact resolveRate_nothing tbl b q hd hi
  · intro h
    rw [resolveRate_direct tbl b q ⟨none⟩ h]
  · intro hd hi
    rw [resolveRate_inverse tbl b q ⟨none⟩ hd hi]
    rfl
  · intro hd hi
    rw [resolveRate_inverse tbl b q ⟨some 0⟩ hd hi]
    simp

/-- Concrete tables exercising every branch of `resolver_cases`. -/
def tblResolver : Table :=
  [("AAABBB", ⟨some 7⟩), ("CCCDDD", ⟨none⟩), ("EEEFFF", ⟨some 0⟩)]

/-- Witness for C3: every case of `resolver_cases` holds at a concrete table. -/
theorem resolver_cases_witness :
    resolveRate tblResolver "AAA" "BBB" = some 7
    ∧ resolveRate tblResolver "BBB" "AAA" = some (1 / 7)
    ∧ resolveRate tblResolver "XXX" "YYY" = none
    ∧ resolveRate tblResolver "CCC" "DDD" = none
    ∧ resolveRate tblResolver "DDD" "CCC" = none
    ∧ resolveRate tblResolver "FFF" "EEE" = none := by
  refine ⟨?_, ?_, ?_, ?_, ?_, ?_⟩
  · exact (resolver_cases tblResolver "AAA" "BBB").1 7 (by decide)
  · exact (resolver_cases tblResolver "BBB" "AAA").2.1 7 (by decide) (by decide)
      (by norm_num)
  · exact (resolver_cases tblResolver "XXX" "YYY").2.2.1 (by decide) (by decide)
  · exact (resolver_cases tblResolver "CCC" "DDD").2.2.2.1 (by decide)
  · exact (resolver_cases tblResolver "DDD" "CCC").2.2.2.2.1 (by decide)
      (by decide)
  · exact (resolver_cases tblResolver "FFF" "EEE").2.2.2.2.2 (by decide)
      (by decide)

/-- The triangular opportunity handed to the paper trader: the triplet, the
three resolved rates and the net profit fraction. -/
structure TriOpp where
  triplet : String × String × String
  rate_AB : ℚ
  rate_BC : ℚ
  rate_CA : ℚ
  net_profit : ℚ
deriving DecidableEq

/-- The statically configured triplet list from `ArbitrageEngine.__init__`. -/
def triangular_triplets : List (String × String × String) :=
  [("USDT", "BTC", "ETH"), ("USDT", "BTC", "BNB"), ("BTC", "ETH", "USDT")]

/-- One iteration of the loop body of
`ArbitrageEngine.run_triangular_arbitrage_check`: select the stored pair
symbols, skip the triplet when one is missing, resolve the three rates, and
emit an opportunity when the fee-adjusted product exceeds 1. -/
def run_triangular_check_step (tbl : Table) (t : String × String × String) :
    Option TriOpp :=
  match t with
  | (A, B, C) =>
    let pair_AB := choosePair tbl A B
    let pair_BC := choosePair tbl B C
    let pair_CA := choosePair tbl C A
    if containsSym tbl pair_AB && containsSym tbl pair_BC
        && containsSym tbl pair_CA then
      match get_rate tbl A B pair_AB, get_rate tbl B C pair_BC,
          get_rate tbl C A pair_CA with
      | some rate_AB, some rate_BC, some rate_CA =>
        let raw_product := rate_AB * rate_BC * rate_CA
        let fee_adjustment := (1 - fee_rate) ^ 3
        let effective_product := raw_product * fee_adjustment
        if 1 < effective_product then
          some ⟨(A, B, C), rate_AB, rate_BC, rate_CA, effective_product - 1⟩
        else none
      | _, _, _ => none
    else none

/-- Transcription of `ArbitrageEngine.run_triangular_arbitrage_check`: the opportunities
emitted over one pass of the triplet list, in configuration order. -/
def run_triangular_arbitrage_check (tbl : Table)
    (triplets : List (String × String × String)) : List TriOpp :=
  triplets.filterMap (run_triangular_check_step tbl)

theorem contains_choosePair_of_resolve (tbl : Table) (x y : String) (r : ℚ)
    (h : resolveRate tbl x y = some r) :
    containsSym tbl (choosePair tbl x y) = true := by
  unfold resolveRate get_rate at h
  cases hq : lookupTable tbl (choosePair tbl x y) with
  | none => rw [hq] at h; exact Option.noConfusion h
  | some q => exact contains_of_lookup tbl _ q hq

theorem triangular_step_eq (tbl : Table) (A B C : String) (r1 r2 r3 : ℚ)
    (h1 : resolveRate tbl A B = some r1) (h2 : resolveRate tbl B C = some r2)
    (h3 : resolveRate tbl C A = some r3) :
    run_triangular_check_step tbl (A, B, C) =
      if 1 < r1 * r2 * r3 * (1 - fee_rate) ^ 3 then
        some ⟨(A, B, C), r1, r2, r3, r1 * r2 * r3 * (1 - fee_rate) ^ 3 - 1⟩
      else none := by
  have c1 := contains_choosePair_of_resolve tbl A B r1 h1
  have c2 := contains_choosePair_of_resolve tbl B C r2 h2
  have c3 := contains_choosePair_of_resolve tbl C A r3 h3
  unfold resolveRate at h1 h2 h3
  simp only [run_triangular_check_step]
  rw [c1, c2, c3]
  simp only [Bool.and_self, if_true]
  rw [h1, h2, h3]

/-- C2: for any triplet whose three rates all resolve, the scanner emits an
opportunity exactly when `rate_AB * rate_BC * rate_CA * (1 - fee_rate)^3 > 1`
(strict: a product of exactly 1 emits nothing), and the emitted net profit
fraction is exactly that effective product minus 1. -/
theorem triangular_step_spec (tbl : Table) (A B C : String) (r1 r2 r3 : ℚ)
    (h1 : resolveRate tbl A B = some r1) (h2 : resolveRate tbl B C = some r2)
    (h3 : resolveRate tbl C A = some r3) :
    run_triangular_check_step tbl (A, B, C) =
      if 1 < r1 * r2 * r3 * (1 - fee_rate) ^ 3 then
        some ⟨(A, B, C), r1, r2, r3, r1 * r2 * r3 * (1 - fee_rate) ^ 3 - 1⟩
      else none :=
  triangular_step_eq tbl A B C r1 r2 r3 h1 h2 h3

/-- A concrete profitable table for the triangular scanner. -/
def tblTri : Table :=
  [("AAABBB", ⟨some 2⟩), ("BBBCCC", ⟨some 3⟩), ("CCCAAA", ⟨some 4⟩)]

/-- Witness for C2: on `tblTri` the triplet (AAA, BBB, CCC) resolves to rates
2, 3, 4 and the scanner emits the exact fee-adjusted profit. -/
theorem triangular_step_spec_witness :
    run_triangular_check_step tblTri ("AAA", "BBB", "CCC") =
      if 1 < 2 * 3 * 4 * (1 - fee_rate) ^ 3 then
        some ⟨("AAA", "BBB", "CCC"), 2, 3, 4,
          2 * 3 * 4 * (1 - fee_rate) ^ 3 - 1⟩
      else none :=
  triangular_step_spec tblTri "AAA" "BBB" "CCC" 2 3 4 (by decide) (by decide)
    (by decide)

/-- The per-leg rate lookup inside `ArbitrageEngine.calculate_cycle_profit`:
direct symbol first (its `["price"]` access raises, i.e. yields `none`, when
the price field is absent), then inverse with `1 / price` guarded to `0` for
a zero price, and `1.0` when neither symbol is in the table. -/
def cycle_leg_rate (tbl : Table) (A B : String) : Option ℚ :=
  if containsSym tbl (A ++ B) then
    (lookupTable tbl (A ++ B)).bind (fun data => data.price)
  else if containsSym tbl (B ++ A) then
    (lookupTable tbl (B ++ A)).bind (fun data =>
      data.price.bind (fun inv_rate =>
        some (if inv_rate ≠ 0 then 1 / inv_rate else 0)))
  else some 1

/-- The consecutive index pairs `(cycle[i], cycle[(i + 1) % len(cycle)])`
traversed by `calculate_cycle_profit`. -/
def cyclePairs (cycle : List String) : List (String × String) :=
  (List.range cycle.length).map
    (fun i => (cycle.getD i "", cycle.getD ((i + 1) % cycle.length) ""))

/-- One loop iteration of `calculate_cycle_profit`:
`amount = amount * rate * (1 - fee_rate)`, with `none` propagating a raised
`KeyError` from a missing price field. -/
def profitStep (tbl : Table) (acc : Option ℚ) (p : String × String) :
    Option ℚ :=
  match acc, cycle_leg_rate tbl p.1 p.2 with
  | some amount, some rate => some (amount * rate * (1 - fee_rate))
  | _, _ => none

/-- Transcription of `ArbitrageEngine.calculate_cycle_profit`: replay the
cycle starting from amount `1.0`. -/
def calculate_cycle_profit (tbl : Table) (cycle : List String) : Option ℚ :=
  (cyclePairs cycle).foldl (profitStep tbl) (some 1)

/-- The spec-side leg multiplier, as amended by the counterexample: the
direct price when the direct symbol is present (aborting when its price
field is absent), otherwise the reciprocal of the inverse price — which is
`0`, not `1`, when the inverse price is exactly zero — and `1` only when
neither orientation is present. -/
def specLegRate (tbl : Table) (X Y : String) : Option ℚ :=
  match lookupTable tbl (X ++ Y), lookupTable tbl (Y ++ X) with
  | some q, _ => q.price
  | none, some q => q.price.map (fun p => if p = 0 then 0 else 1 / p)
  | none, none => some 1

/-- Resolve the spec-side multiplier of every leg, failing when any leg
fails. -/
def seqLegs (tbl : Table) : List (String × String) → Option (List ℚ)
  | [] => some []
  | p :: ps =>
    match specLegRate tbl p.1 p.2, seqLegs tbl ps with
    | some r, some rs => some (r :: rs)
    | _, _ => none

/-- The spec-side replay: pair each cycle element with its successor
(wrapping from the last element back to the first via `rotate 1`), resolve
every leg multiplier, and compound `amount * rate * (1 - fee_rate)` from a
unit amount. -/
def specReplay (tbl : Table) (cyc : List String) : Option ℚ :=
  (seqLegs tbl (cyc.zip (cyc.rotate 1))).map
    (fun rs => rs.foldl (fun amount rate => amount * rate * (1 - fee_rate)) 1)

theorem cycle_leg_direct (tbl : Table) (X Y : String) (q : Quote)
    (hd : lookupTable tbl (X ++ Y) = some q) :
    cycle_leg_rate tbl X Y = q.price := by
  unfold cycle_leg_rate containsSym
  rw [hd]
  simp

theorem cycle_leg_inverse (tbl : Table) (X Y : String) (q : Quote)
    (hd : lookupTable tbl (X ++ Y) = none)
    (hi : lookupTable tbl (Y ++ X) = some q) :
    cycle_leg_rate tbl X Y
      = q.price.bind (fun p => some (if p ≠ 0 then 1 / p else 0)) := by
  unfold cycle_leg_rate containsSym
  rw [hd, hi]
  simp

theorem cycle_leg_nothing (tbl : Table) (X Y : String)
    (hd : lookupTable tbl (X ++ Y) = none)
    (hi : lookupTable tbl (Y ++ X) = none) :
    cycle_leg_rate tbl X Y = some 1 := by
  unfold cycle_leg_rate containsSym
  rw [hd, hi]
  simp

theorem cycle_leg_rate_eq_spec (tbl : Table) (X Y : String) :
    cycle_leg_rate tbl X Y = specLegRate tbl X Y := by
  cases hd : lookupTable tbl (X ++ Y) with
  | some q =>
    rw [cycle_leg_direct tbl X Y q hd]
    unfold specLegRate
    rw [hd]
  | none =>
    cases hi : lookupTable tbl (Y ++ X) with
    | none =>
      rw [cycle_leg_nothing tbl X Y hd hi]
      unfold specLegRate
      rw [hd, hi]
    | some q =>
      rw [cycle_leg_inverse tbl X Y q hd hi]
      unfold specLegRate
      rw [hd, hi]
      show q.price.bind (fun p => some (if p ≠ 0 then 1 / p else 0))
        = q.price.map (fun p => if p = 0 then 0 else 1 / p)
      cases hp : q.price with
      | none => rfl
      | some p =>
        simp only [Option.some_bind, Option.map_some]
        by_cases h0 : p = 0 <;> simp [h0]

theorem foldl_profitStep_none (tbl : Table) (ps : List (String × String)) :
    ps.foldl (profitStep tbl) none = none := by
  induction ps with
  | nil => rfl
  | cons p ps ih =>
    rw [List.foldl_cons]
    have hstep : profitStep tbl none p = none := by
      unfold profitStep
      cases cycle_leg_rate tbl p.1 p.2 <;> rfl
    rw [hstep, ih]

theorem foldl_profitStep_eq_seqLegs (tbl : Table) (ps : List (String × String)) :
    ∀ a : ℚ, ps.foldl (profitStep tbl) (some a) =
      (seqLegs tbl ps).map
        (fun rs => rs.foldl (fun amount rate => amount * rate * (1 - fee_rate)) a) := by
  induction ps with
  | nil => intro a; simp [seqLegs]
  | cons p ps ih =>
    intro a
    rw [List.foldl_cons]
    have hleg : cycle_leg_rate tbl p.1 p.2 = specLegRate tbl p.1 p.2 :=
      cycle_leg_rate_eq_spec tbl p.1 p.2
    cases hr : cycle_leg_rate tbl p.1 p.2 with
    | none =>
      have hstep : profitStep tbl (some a) p = none := by
        unfold profitStep; rw [hr]
      rw [hstep, foldl_profitStep_none]
      rw [hleg] at hr
      simp [seqLegs, hr]
    | some r =>
      have hstep : profitStep tbl (some a) p = some (a * r * (1 - fee_rate)) := by
        unfold profitStep; rw [hr]
      rw [hstep, ih (a * r * (1 - fee_rate))]
      rw [hleg] at hr
      cases hm : seqLegs tbl ps with
      | none => simp [seqLegs, hr, hm]
      | some rs => simp [seqLegs, hr, hm]

theorem cyclePairs_eq_zip_rotate (l : List String) :
    cyclePairs l = l.zip (l.rotate 1) := by
  apply List.ext_getElem
  · simp [cyclePairs]
  · intro i h1 h2
    have hi : i < l.length := by
      simpa [cyclePairs] using h1
    have hpos : 0 < l.length := Nat.lt_of_le_of_lt (Nat.zero_le i) hi
    have hmod : (i + 1) % l.length < l.length := Nat.mod_lt _ hpos
    simp only [cyclePairs, List.getElem_map, List.getElem_range,
      List.getElem_zip, List.getElem_rotate]
    rw [List.getD_eq_getElem l "" hi, List.getD_eq_getElem l "" hmod]

/-- C6 (amended): `calculate_cycle_profit` replays the cycle exactly as the
amended specification describes — unit start amount, consecutive pairs with
wrap-around, each leg compounding `rate * (1 - fee_rate)`, where an
unresolvable leg contributes `1` only when neither orientation is present,
while an inverse-only orientation with price exactly zero contributes `0`,
and a present orientation with a missing price field aborts the call. -/
theorem cycle_profit_replay_spec (tbl : Table) (cyc : List String) :
    calculate_cycle_profit tbl cyc = specReplay tbl cyc := by
  unfold calculate_cycle_profit specReplay
  rw [cyclePairs_eq_zip_rotate, foldl_profitStep_eq_seqLegs]

/-- A table where the cycle leg AAA→BBB is only available in inverse
orientation with price exactly `0`. -/
def tblCyc0 : Table :=
  [("BBBAAA", ⟨some 0⟩), ("BBBCCC", ⟨some 2⟩), ("CCCAAA", ⟨some 3⟩)]

/-- Counterexample to C6 as stated: the leg AAA→BBB resolves to no rate (its
only orientation has price zero), yet the replayed profit is `0` — the leg's
multiplier was `0`, not the claimed no-op `1` (which would have produced
`2 * 3 * (1 - fee_rate)^3 ≠ 0` from the remaining legs). -/
theorem cycle_profit_zero_leg_cex :
    resolveRate tblCyc0 "AAA" "BBB" = none
    ∧ calculate_cycle_profit tblCyc0 ["AAA", "BBB", "CCC"] = some 0 := by
  constructor
  · with_unfolding_all decide
  · with_unfolding_all decide

theorem resolve_imp_leg (tbl : Table) (X Y : String) (r : ℚ)
    (h : resolveRate tbl X Y = some r) : cycle_leg_rate tbl X Y = some r := by
  cases hd : lookupTable tbl (X ++ Y) with
  | some q =>
    rw [resolveRate_direct tbl X Y q hd] at h
    rw [cycle_leg_direct tbl X Y q hd]
    exact h
  | none =>
    cases hi : lookupTable tbl (Y ++ X) with
    | none =>
      rw [resolveRate_nothing tbl X Y hd hi] at h
      exact Option.noConfusion h
    | some q =>
      rw [resolveRate_inverse tbl X Y q hd hi] at h
      rw [cycle_leg_inverse tbl X Y q hd hi]
      cases hp : q.price with
      | none =>
        rw [hp] at h
        simp at h
      | some p =>
        rw [hp] at h
        simp only [Option.some_bind] at h ⊢
        by_cases h0 : p = 0
        · rw [h0] at h
          simp at h
        · rw [if_pos h0] at h
          simp only [ne_eq, h0, not_false_eq_true, if_pos]
          exact h

/-- C7: for a 3-node cycle whose three legs all resolve, the cycle
detector's replayed profit equals the triangular scanner's effective product
`r1 * r2 * r3 * (1 - fee_rate)^3` exactly; in particular, whenever the
triangular scanner emits an opportunity for the equivalent triplet, the
replayed profit is exactly `net_profit + 1`. -/
theorem cycle_profit_matches_triangular (tbl : Table) (A B C : String)
    (r1 r2 r3 : ℚ) (h1 : resolveRate tbl A B = some r1)
    (h2 : resolveRate tbl B C = some r2) (h3 : resolveRate tbl C A = some r3) :
    calculate_cycle_profit tbl [A, B, C]
        = some (r1 * r2 * r3 * (1 - fee_rate) ^ 3)
    ∧ ∀ o : TriOpp, run_triangular_check_step tbl (A, B, C) = some o →
        calculate_cycle_profit tbl [A, B, C] = some (o.net_profit + 1) := by
  have hpairs : cyclePairs [A, B, C] = [(A, B), (B, C), (C, A)] := by
    simp [cyclePairs, List.range_succ]
  have hprofit : calculate_cycle_profit tbl [A, B, C]
      = some (r1 * r2 * r3 * (1 - fee_rate) ^ 3) := by
    unfold calculate_cycle_profit
    rw [hpairs]
    simp only [List.foldl_cons, List.foldl_nil, profitStep,
      resolve_imp_leg tbl A B r1 h1, resolve_imp_leg tbl B C r2 h2,
      resolve_imp_leg tbl C A r3 h3]
    exact congrArg some (by ring)
  refine ⟨hprofit, ?_⟩
  intro o ho
  rw [triangular_step_eq tbl A B C r1 r2 r3 h1 h2 h3] at ho
  by_cases hlt : 1 < r1 * r2 * r3 * (1 - fee_rate) ^ 3
  · rw [if_pos hlt] at ho
    have hnet : o.net_profit = r1 * r2 * r3 * (1 - fee_rate) ^ 3 - 1 := by
      cases ho
      rfl
    rw [hprofit, hnet]
    exact congrArg some (by ring)
  · rw [if_neg hlt] at ho
    exact Option.noConfusion ho

/-- A table giving a 3-cycle with one inverse-orientation leg. -/
def tblCycTri : Table :=
  [("AAABBB", ⟨some 2⟩), ("CCCBBB", ⟨some 5⟩), ("CCCAAA", ⟨some 4⟩)]

/-- Witness for C7 at a concrete table: the middle leg resolves through the
inverse orientation (`1 / 5`), and the replayed profit matches the
triangular effective product exactly. -/
theorem cycle_profit_matches_triangular_witness :
    calculate_cycle_profit tblCycTri ["AAA", "BBB", "CCC"]
      = some (2 * (1 / 5) * 4 * (1 - fee_rate) ^ 3) :=
  (cycle_profit_matches_triangular tblCycTri "AAA" "BBB" "CCC" 2 (1 / 5) 4
    (by with_unfolding_all decide) (by with_unfolding_all decide)
    (by with_unfolding_all decide)).1

/-- Adjacency list of the currency graph, in insertion order.  The Python
edge weight `-log(rate * (1 - fee_rate))` is represented by the multiplier
`rate * (1 - fee_rate)` itself (see the module docstring): the order
reversing bijection `exp (-·)` carries each weight to its multiplier, every
relaxation comparison `dist u + w < dist v` to `mdist u * m > mdist v`, and
distance `0` (resp. `+∞`) to `1` (resp. `0`). -/
abbrev Graph := List (String × List (String × ℚ))

/-- The symbol-splitting heuristic of `run_bellman_ford_arbitrage_check`:
a 4-character "USDT" suffix, else a 3-character base. -/
def splitSymbol (sym : String) : String × String :=
  if sym.endsWith "USDT" then (sym.dropRight 4, "USDT")
  else (sym.take 3, sym.drop 3)

/-- Python `graph.setdefault(u, []).append((v, m))`: append an edge to the
vertex's
adjacency list, creating the vertex entry at the end on first use. -/
def addEdge (g : Graph) (u v : String) (m : ℚ) : Graph :=
  if g.any (fun e => e.1 = u) then
    g.map (fun e => if e.1 = u then (e.1, e.2 ++ [(v, m)]) else e)
  else g ++ [(u, [(v, m)])]

/-- Python `currencies.add(c)` on the currency set, represented as a list of its
distinct members in first-insertion order. -/
def addCurrency (cs : List String) (c : String) : List String :=
  if c ∈ cs then cs else cs ++ [c]

/-- Python `currencies.add(base); currencies.add(quote)` for one pair symbol. -/
def addBoth (cs : List String) (sym : String) : List String :=
  addCurrency (addCurrency cs (splitSymbol sym).1) (splitSymbol sym).2

/-- The loop body of the graph construction in
`run_bellman_ford_arbitrage_check`: skip symbols shorter than 6; add both
split currencies to the set; then, if the price is present and positive, add
the forward and (behind the redundant `rate != 0` guard) the reverse
edge. -/
def buildStep (acc : Graph × List String) (entry : String × Quote) :
    Graph × List String :=
  if entry.1.length < 6 then acc
  else
    match entry.2.price with
    | none => (acc.1, addBoth acc.2 entry.1)
    | some rate =>
      if rate ≤ 0 then (acc.1, addBoth acc.2 entry.1)
      else
        (if rate ≠ 0 then
          addEdge
            (addEdge acc.1 (splitSymbol entry.1).1 (splitSymbol entry.1).2
              (rate * (1 - fee_rate)))
            (splitSymbol entry.1).2 (splitSymbol entry.1).1
            ((1 / rate) * (1 - fee_rate))
        else
          addEdge acc.1 (splitSymbol entry.1).1 (splitSymbol entry.1).2
            (rate * (1 - fee_rate)),
         addBoth acc.2 entry.1)

/-- Graph construction over the whole table, in table iteration order. -/
def buildGraphCurrencies (tbl : Table) : Graph × List String :=
  tbl.foldl buildStep ([], [])

/-- Edge membership in the adjacency-list graph. -/
def edgeIn (g : Graph) (u v : String) (m : ℚ) : Prop :=
  ∃ e ∈ g, e.1 = u ∧ (v, m) ∈ e.2

/-- The edge `u → v` with multiplier `m` is one of the two edges that the
builder derives from table entry `e`. -/
def edgeFromEntry (e : String × Quote) (u v : String) (m : ℚ) : Prop :=
  6 ≤ e.1.length ∧ ∃ p : ℚ, e.2.price = some p ∧ 0 < p ∧
    ((u = (splitSymbol e.1).1 ∧ v = (splitSymbol e.1).2
        ∧ m = p * (1 - fee_rate))
      ∨ (u = (splitSymbol e.1).2 ∧ v = (splitSymbol e.1).1
        ∧ m = (1 / p) * (1 - fee_rate)))

/-- A table entry that contributes edges: symbol length at least 6 and a
present, positive price. -/
def qualifiesEdge (e : String × Quote) : Bool :=
  decide (6 ≤ e.1.length) &&
    (match e.2.price with
     | some p => decide (0 < p)
     | none => false)

/-- Vertex names of the graph, in insertion order. -/
def graphKeys (g : Graph) : List String := g.map (fun e => e.1)

/-- Total number of edges stored in the graph. -/
def graphEdgeCount (g : Graph) : Nat := (g.map (fun e => e.2.length)).sum

theorem edgeIn_addEdge_self (g : Graph) (a b : String) (w : ℚ) :
    edgeIn (addEdge g a b w) a b w := by
  unfold addEdge edgeIn
  cases hc : g.any (fun e => e.1 = a) with
  | true =>
    rw [if_pos rfl]
    obtain ⟨e, he, hea0⟩ := List.any_eq_true.mp hc
    have hea : e.1 = a := of_decide_eq_true hea0
    refine ⟨(e.1, e.2 ++ [(b, w)]), ?_, ?_, ?_⟩
    · refine List.mem_map.mpr ⟨e, he, ?_⟩
      rw [if_pos hea]
    · exact hea
    · simp
  | false =>
    simp only [Bool.false_eq_true, if_false]
    exact ⟨(a, [(b, w)]), by simp, rfl, by simp⟩

theorem edgeIn_addEdge_mono (g : Graph) (a b : String) (w : ℚ)
    (u v : String) (m : ℚ) (h : edgeIn g u v m) :
    edgeIn (addEdge g a b w) u v m := by
  obtain ⟨e, he, h1, h2⟩ := h
  unfold addEdge
  cases hc : g.any (fun e => e.1 = a) with
  | true =>
    rw [if_pos rfl]
    by_cases hea : e.1 = a
    · refine ⟨(e.1, e.2 ++ [(b, w)]), List.mem_map.mpr ⟨e, he, by rw [if_pos hea]⟩,
        h1, by simp [h2]⟩
    · exact ⟨e, List.mem_map.mpr ⟨e, he, by rw [if_neg hea]⟩, h1, h2⟩
  | false =>
    simp only [Bool.false_eq_true, if_false]
    exact ⟨e, List.mem_append_left _ he, h1, h2⟩

theorem edgeIn_addEdge_elim (g : Graph) (a b : String) (w : ℚ)
    (u v : String) (m : ℚ) (h : edgeIn (addEdge g a b w) u v m) :
    edgeIn g u v m ∨ (u = a ∧ v = b ∧ m = w) := by
  obtain ⟨e, he, h1, h2⟩ := h
  unfold addEdge at he
  cases hc : g.any (fun eo => eo.1 = a) with
  | true =>
    rw [hc] at he
    simp only [eq_self_iff_true, if_true] at he
    obtain ⟨e0, he0, hfe⟩ := List.mem_map.mp he
    by_cases hea : e0.1 = a
    · rw [if_pos hea] at hfe
      rcases List.mem_append.mp (by rw [← hfe] at h2; exact h2) with h2l | h2r
      · exact Or.inl ⟨e0, he0, by rw [← h1, ← hfe], h2l⟩
      · right
        have hvm : (v, m) = (b, w) := by simpa using h2r
        have hu : u = a := by rw [← h1, ← hfe]; exact hea
        exact ⟨hu, congrArg Prod.fst hvm, congrArg Prod.snd hvm⟩
    · rw [if_neg hea] at hfe
      exact Or.inl ⟨e0, he0, by rw [← hfe] at h1 h2; exact h1, by
        rw [← hfe] at h2; exact h2⟩
  | false =>
    rw [hc] at he
    simp only [Bool.false_eq_true, if_false] at he
    rcases List.mem_append.mp he with hel | her
    · exact Or.inl ⟨e, hel, h1, h2⟩
    · right
      have he2 : e = (a, [(b, w)]) := by simpa using her
      rw [he2] at h1 h2
      have hvm : (v, m) = (b, w) := by simpa using h2
      exact ⟨h1.symm, congrArg Prod.fst hvm, congrArg Prod.snd hvm⟩

theorem buildStep_eq_skip (acc : Graph × List String) (e : String × Quote)
    (hlen : e.1.length < 6) : buildStep acc e = acc := by
  unfold buildStep
  rw [if_pos hlen]

theorem buildStep_eq_none (acc : Graph × List String) (e : String × Quote)
    (hlen : ¬ e.1.length < 6) (hp : e.2.price = none) :
    buildStep acc e = (acc.1, addBoth acc.2 e.1) := by
  unfold buildStep
  rw [if_neg hlen, hp]

theorem buildStep_eq_nonpos (acc : Graph × List String) (e : String × Quote)
    (rate : ℚ) (hlen : ¬ e.1.length < 6) (hp : e.2.price = some rate)
    (hr : rate ≤ 0) : buildStep acc e = (acc.1, addBoth acc.2 e.1) := by
  unfold buildStep
  rw [if_neg hlen, hp]
  change (if rate ≤ 0 then _ else _) = _
  rw [if_pos hr]

theorem buildStep_eq_pos (acc : Graph × List String) (e : String × Quote)
    (rate : ℚ) (hlen : ¬ e.1.length < 6) (hp : e.2.price = some rate)
    (hr : 0 < rate) :
    buildStep acc e =
      (addEdge
        (addEdge acc.1 (splitSymbol e.1).1 (splitSymbol e.1).2
          (rate * (1 - fee_rate)))
        (splitSymbol e.1).2 (splitSymbol e.1).1 ((1 / rate) * (1 - fee_rate)),
       addBoth acc.2 e.1) := by
  unfold buildStep
  rw [if_neg hlen, hp]
  change (if rate ≤ 0 then _ else _) = _
  rw [if_neg (not_le.mpr hr), if_pos (ne_of_gt hr)]

theorem buildStep_edge_elim (acc : Graph × List String) (e : String × Quote)
    (u v : String) (m : ℚ) (h : edgeIn (buildStep acc e).1 u v m) :
    edgeIn acc.1 u v m ∨ edgeFromEntry e u v m := by
  by_cases hlen : e.1.length < 6
  · rw [buildStep_eq_skip acc e hlen] at h
    exact Or.inl h
  · cases hp : e.2.price with
    | none =>
      rw [buildStep_eq_none acc e hlen hp] at h
      exact Or.inl h
    | some rate =>
      by_cases hr : rate ≤ 0
      · rw [buildStep_eq_nonpos acc e rate hlen hp hr] at h
        exact Or.inl h
      · have hrpos : 0 < rate := not_le.mp hr
        rw [buildStep_eq_pos acc e rate hlen hp hrpos] at h
        rcases edgeIn_addEdge_elim _ _ _ _ _ _ _ h with h2 | h2
        · rcases edgeIn_addEdge_elim _ _ _ _ _ _ _ h2 with h3 | h3
          · exact Or.inl h3
          · exact Or.inr ⟨Nat.le_of_not_lt hlen, rate, hp, hrpos, Or.inl h3⟩
        · exact Or.inr ⟨Nat.le_of_not_lt hlen, rate, hp, hrpos, Or.inr h2⟩

theorem buildStep_edge_mono (acc : Graph × List String) (e : String × Quote)
    (u v : String) (m : ℚ) (h : edgeIn acc.1 u v m) :
    edgeIn (buildStep acc e).1 u v m := by
  by_cases hlen : e.1.length < 6
  · rw [buildStep_eq_skip acc e hlen]
    exact h
  · cases hp : e.2.price with
    | none =>
      rw [buildStep_eq_none acc e hlen hp]
      exact h
    | some rate =>
      by_cases hr : rate ≤ 0
      · rw [buildStep_eq_nonpos acc e rate hlen hp hr]
        exact h
      · rw [buildStep_eq_pos acc e rate hlen hp (not_le.mp hr)]
        exact edgeIn_addEdge_mono _ _ _ _ _ _ _
          (edgeIn_addEdge_mono _ _ _ _ _ _ _ h)

theorem buildStep_adds_edges (acc : Graph × List String) (e : String × Quote)
    (rate : ℚ) (hlen : ¬ e.1.length < 6) (hp : e.2.price = some rate)
    (hr : 0 < rate) :
    edgeIn (buildStep acc e).1 (splitSymbol e.1).1 (splitSymbol e.1).2
        (rate * (1 - fee_rate))
    ∧ edgeIn (buildStep acc e).1 (splitSymbol e.1).2 (splitSymbol e.1).1
        ((1 / rate) * (1 - fee_rate)) := by
  rw [buildStep_eq_pos acc e rate hlen hp hr]
  refine ⟨edgeIn_addEdge_mono _ _ _ _ _ _ _ (edgeIn_addEdge_self _ _ _ _), ?_⟩
  exact edgeIn_addEdge_self _ _ _ _

theorem addCurrency_self (cs : List String) (c : String) :
    c ∈ addCurrency cs c := by
  unfold addCurrency
  by_cases h : c ∈ cs
  · rw [if_pos h]; exact h
  · rw [if_neg h]; simp

theorem addCurrency_mono (cs : List String) (c d : String) (h : c ∈ cs) :
    c ∈ addCurrency cs d := by
  unfold addCurrency
  by_cases hd : d ∈ cs
  · rw [if_pos hd]; exact h
  · rw [if_neg hd]; exact List.mem_append_left _ h

theorem addCurrency_elim (cs : List String) (c d : String)
    (h : c ∈ addCurrency cs d) : c ∈ cs ∨ c = d := by
  unfold addCurrency at h
  by_cases hd : d ∈ cs
  · rw [if_pos hd] at h; exact Or.inl h
  · rw [if_neg hd] at h
    rcases List.mem_append.mp h with h1 | h1
    · exact Or.inl h1
    · exact Or.inr (by simpa using h1)

theorem buildStep_curr_mono (acc : Graph × List String) (e : String × Quote)
    (c : String) (h : c ∈ acc.2) : c ∈ (buildStep acc e).2 := by
  by_cases hlen : e.1.length < 6
  · rw [buildStep_eq_skip acc e hlen]; exact h
  · have hmem : c ∈ addBoth acc.2 e.1 :=
      addCurrency_mono _ _ _ (addCurrency_mono _ _ _ h)
    cases hp : e.2.price with
    | none => rw [buildStep_eq_none acc e hlen hp]; exact hmem
    | some rate =>
      by_cases hr : rate ≤ 0
      · rw [buildStep_eq_nonpos acc e rate hlen hp hr]; exact hmem
      · rw [buildStep_eq_pos acc e rate hlen hp (not_le.mp hr)]; exact hmem

theorem buildStep_curr_adds (acc : Graph × List String) (e : String × Quote)
    (hlen : ¬ e.1.length < 6) :
    (splitSymbol e.1).1 ∈ (buildStep acc e).2
    ∧ (splitSymbol e.1).2 ∈ (buildStep acc e).2 := by
  have h1 : (splitSymbol e.1).1 ∈ addBoth acc.2 e.1 :=
    addCurrency_mono _ _ _ (addCurrency_self _ _)
  have h2 : (splitSymbol e.1).2 ∈ addBoth acc.2 e.1 := addCurrency_self _ _
  cases hp : e.2.price with
  | none => rw [buildStep_eq_none acc e hlen hp]; exact ⟨h1, h2⟩
  | some rate =>
    by_cases hr : rate ≤ 0
    · rw [buildStep_eq_nonpos acc e rate hlen hp hr]; exact ⟨h1, h2⟩
    · rw [buildStep_eq_pos acc e rate hlen hp (not_le.mp hr)]; exact ⟨h1, h2⟩

theorem buildStep_curr_elim (acc : Graph × List String) (e : String × Quote)
    (c : String) (h : c ∈ (buildStep acc e).2) :
    c ∈ acc.2
    ∨ (6 ≤ e.1.length ∧ (c = (splitSymbol e.1).1 ∨ c = (splitSymbol e.1).2)) := by
  have hboth : c ∈ addBoth acc.2 e.1 →
      c ∈ acc.2 ∨ (c = (splitSymbol e.1).1 ∨ c = (splitSymbol e.1).2) := by
    intro hm
    rcases addCurrency_elim _ _ _ hm with hm1 | hm1
    · rcases addCurrency_elim _ _ _ hm1 with hm2 | hm2
      · exact Or.inl hm2
      · exact Or.inr (Or.inl hm2)
    · exact Or.inr (Or.inr hm1)
  by_cases hlen : e.1.length < 6
  · rw [buildStep_eq_skip acc e hlen] at h
    exact Or.inl h
  · have hle : 6 ≤ e.1.length := Nat.le_of_not_lt hlen
    cases hp : e.2.price with
    | none =>
      rw [buildStep_eq_none acc e hlen hp] at h
      rcases hboth h with h1 | h1
      · exact Or.inl h1
      · exact Or.inr ⟨hle, h1⟩
    | some rate =>
      by_cases hr : rate ≤ 0
      · rw [buildStep_eq_nonpos acc e rate hlen hp hr] at h
        rcases hboth h with h1 | h1
        · exact Or.inl h1
        · exact Or.inr ⟨hle, h1⟩
      · rw [buildStep_eq_pos acc e rate hlen hp (not_le.mp hr)] at h
        rcases hboth h with h1 | h1
        · exact Or.inl h1
        · exact Or.inr ⟨hle, h1⟩

theorem map_addEdge_id_of_not_key (g : Graph) (a b : String) (w : ℚ)
    (ha : a ∉ graphKeys g) :
    g.map (fun e => if e.1 = a then (e.1, e.2 ++ [(b, w)]) else e) = g := by
  induction g with
  | nil => rfl
  | cons e g ih =>
    unfold graphKeys at ha
    simp only [List.map_cons, List.mem_cons, not_or] at ha
    rw [List.map_cons, if_neg (fun he => ha.1 he.symm), ih (by
      unfold graphKeys; exact ha.2)]

theorem graphEdgeCount_map_addEdge (a b : String) (w : ℚ) : ∀ g : Graph,
    (graphKeys g).Nodup → g.any (fun e => e.1 = a) = true →
    graphEdgeCount
        (g.map (fun e => if e.1 = a then (e.1, e.2 ++ [(b, w)]) else e))
      = graphEdgeCount g + 1 := by
  intro g
  induction g with
  | nil => intro _ hc; simp at hc
  | cons e g ih =>
    intro hnd hc
    simp only [List.any_cons, Bool.or_eq_true] at hc
    have hnd2 : (graphKeys g).Nodup := by
      unfold graphKeys at hnd ⊢
      simp only [List.map_cons, List.nodup_cons] at hnd
      exact hnd.2
    by_cases hea : e.1 = a
    · have ha : a ∉ graphKeys g := by
        unfold graphKeys at hnd ⊢
        simp only [List.map_cons, List.nodup_cons] at hnd
        rw [← hea]
        exact hnd.1
      rw [List.map_cons, if_pos hea, map_addEdge_id_of_not_key g a b w ha]
      unfold graphEdgeCount
      simp only [List.map_cons, List.sum_cons, List.length_append,
        List.length_singleton]
      omega
    · rcases hc with hc1 | hc1
      · exact absurd (of_decide_eq_true hc1) hea
      · rw [List.map_cons, if_neg hea]
        unfold graphEdgeCount
        simp only [List.map_cons, List.sum_cons]
        have := ih hnd2 hc1
        unfold graphEdgeCount at this
        omega

theorem graphEdgeCount_addEdge (g : Graph) (a b : String) (w : ℚ)
    (hnd : (graphKeys g).Nodup) :
    graphEdgeCount (addEdge g a b w) = graphEdgeCount g + 1 := by
  unfold addEdge
  cases hc : g.any (fun e => e.1 = a) with
  | false =>
    simp only [Bool.false_eq_true, if_false]
    unfold graphEdgeCount
    simp
  | true =>
    rw [if_pos rfl]
    exact graphEdgeCount_map_addEdge a b w g hnd hc

theorem graphKeys_addEdge_nodup (g : Graph) (a b : String) (w : ℚ)
    (hnd : (graphKeys g).Nodup) : (graphKeys (addEdge g a b w)).Nodup := by
  unfold addEdge
  cases hc : g.any (fun e => e.1 = a) with
  | true =>
    rw [if_pos rfl]
    have hkeys : graphKeys
        (g.map (fun e => if e.1 = a then (e.1, e.2 ++ [(b, w)]) else e))
        = graphKeys g := by
      unfold graphKeys
      rw [List.map_map]
      refine List.map_congr_left ?_
      intro e he
      by_cases hea : e.1 = a
      · simp [hea]
      · simp [hea]
    rw [hkeys]
    exact hnd
  | false =>
    simp only [Bool.false_eq_true, if_false]
    have ha : a ∉ graphKeys g := by
      intro hmem
      unfold graphKeys at hmem
      obtain ⟨e, he, hea⟩ := List.mem_map.mp hmem
      have : g.any (fun e => e.1 = a) = true :=
        List.any_eq_true.mpr ⟨e, he, decide_eq_true hea⟩
      rw [hc] at this
      exact Bool.noConfusion this
    unfold graphKeys
    rw [List.map_append]
    simp only [List.map_cons, List.map_nil]
    refine List.Nodup.append hnd (List.nodup_singleton a) ?_
    intro x hx hxa
    rw [List.mem_singleton.mp hxa] at hx
    exact ha hx

theorem buildStep_fst_skip (acc : Graph × List String) (e : String × Quote)
    (hlen : e.1.length < 6) : (buildStep acc e).1 = acc.1 := by
  rw [buildStep_eq_skip acc e hlen]

theorem buildStep_fst_none (acc : Graph × List String) (e : String × Quote)
    (hlen : ¬ e.1.length < 6) (hp : e.2.price = none) :
    (buildStep acc e).1 = acc.1 := by
  rw [buildStep_eq_none acc e hlen hp]

theorem buildStep_fst_nonpos (acc : Graph × List String) (e : String × Quote)
    (rate : ℚ) (hlen : ¬ e.1.length < 6) (hp : e.2.price = some rate)
    (hr : rate ≤ 0) : (buildStep acc e).1 = acc.1 := by
  rw [buildStep_eq_nonpos acc e rate hlen hp hr]

theorem buildStep_fst_pos (acc : Graph × List String) (e : String × Quote)
    (rate : ℚ) (hlen : ¬ e.1.length < 6) (hp : e.2.price = some rate)
    (hr : 0 < rate) :
    (buildStep acc e).1 =
      addEdge
        (addEdge acc.1 (splitSymbol e.1).1 (splitSymbol e.1).2
          (rate * (1 - fee_rate)))
        (splitSymbol e.1).2 (splitSymbol e.1).1
        ((1 / rate) * (1 - fee_rate)) := by
  rw [buildStep_eq_pos acc e rate hlen hp hr]

theorem buildStep_count (acc : Graph × List String) (e : String × Quote)
    (hnd : (graphKeys acc.1).Nodup) :
    (graphKeys (buildStep acc e).1).Nodup
    ∧ graphEdgeCount (buildStep acc e).1
        = graphEdgeCount acc.1 + (if qualifiesEdge e then 2 else 0) := by
  by_cases hlen : e.1.length < 6
  · have hq : qualifiesEdge e = false := by
      unfold qualifiesEdge
      rw [decide_eq_false (not_le.mpr hlen)]
      rfl
    rw [buildStep_fst_skip acc e hlen, hq]
    exact ⟨hnd, by simp⟩
  · cases hp : e.2.price with
    | none =>
      have hq : qualifiesEdge e = false := by
        unfold qualifiesEdge
        rw [hp]
        simp
      rw [buildStep_fst_none acc e hlen hp, hq]
      exact ⟨hnd, by simp⟩
    | some rate =>
      by_cases hr : rate ≤ 0
      · have hq : qualifiesEdge e = false := by
          unfold qualifiesEdge
          rw [hp]
          simp [decide_eq_false (not_lt.mpr hr)]
        rw [buildStep_fst_nonpos acc e rate hlen hp hr, hq]
        exact ⟨hnd, by simp⟩
      · have hrpos : 0 < rate := not_le.mp hr
        have hq : qualifiesEdge e = true := by
          unfold qualifiesEdge
          rw [hp]
          simp [Nat.le_of_not_lt hlen, hrpos]
        rw [buildStep_fst_pos acc e rate hlen hp hrpos, hq]
        have hnd1 := graphKeys_addEdge_nodup acc.1 (splitSymbol e.1).1
          (splitSymbol e.1).2 (rate * (1 - fee_rate)) hnd
        have hc1 := graphEdgeCount_addEdge acc.1 (splitSymbol e.1).1
          (splitSymbol e.1).2 (rate * (1 - fee_rate)) hnd
        have hnd2 := graphKeys_addEdge_nodup _ (splitSymbol e.1).2
          (splitSymbol e.1).1 ((1 / rate) * (1 - fee_rate)) hnd1
        have hc2 := graphEdgeCount_addEdge _ (splitSymbol e.1).2
          (splitSymbol e.1).1 ((1 / rate) * (1 - fee_rate)) hnd1
        refine ⟨hnd2, ?_⟩
        rw [hc2, hc1]
        simp

theorem build_fold_edge_elim : ∀ (l : List (String × Quote))
    (acc : Graph × List String) (u v : String) (m : ℚ),
    edgeIn (l.foldl buildStep acc).1 u v m →
    edgeIn acc.1 u v m ∨ ∃ e ∈ l, edgeFromEntry e u v m := by
  intro l
  induction l with
  | nil => intro acc u v m h; exact Or.inl h
  | cons e l ih =>
    intro acc u v m h
    rw [List.foldl_cons] at h
    rcases ih (buildStep acc e) u v m h with h1 | h1
    · rcases buildStep_edge_elim acc e u v m h1 with h2 | h2
      · exact Or.inl h2
      · exact Or.inr ⟨e, List.mem_cons_self e l, h2⟩
    · obtain ⟨e2, he2, hfe⟩ := h1
      exact Or.inr ⟨e2, List.mem_cons_of_mem e he2, hfe⟩

theorem build_fold_edge_mono : ∀ (l : List (String × Quote))
    (acc : Graph × List String) (u v : String) (m : ℚ),
    edgeIn acc.1 u v m → edgeIn (l.foldl buildStep acc).1 u v m := by
  intro l
  induction l with
  | nil => intro acc u v m h; exact h
  | cons e l ih =>
    intro acc u v m h
    rw [List.foldl_cons]
    exact ih (buildStep acc e) u v m (buildStep_edge_mono acc e u v m h)

theorem build_fold_edge_complete : ∀ (l : List (String × Quote))
    (acc : Graph × List String) (e : String × Quote) (rate : ℚ),
    e ∈ l → ¬ e.1.length < 6 → e.2.price = some rate → 0 < rate →
    edgeIn (l.foldl buildStep acc).1 (splitSymbol e.1).1 (splitSymbol e.1).2
        (rate * (1 - fee_rate))
    ∧ edgeIn (l.foldl buildStep acc).1 (splitSymbol e.1).2 (splitSymbol e.1).1
        ((1 / rate) * (1 - fee_rate)) := by
  intro l
  induction l with
  | nil => intro acc e rate he; exact absurd he (List.not_mem_nil e)
  | cons e0 l ih =>
    intro acc e rate he hlen hp hr
    rw [List.foldl_cons]
    rcases List.mem_cons.mp he with he1 | he1
    · subst he1
      have hadds := buildStep_adds_edges acc e rate hlen hp hr
      exact ⟨build_fold_edge_mono l _ _ _ _ hadds.1,
        build_fold_edge_mono l _ _ _ _ hadds.2⟩
    · exact ih (buildStep acc e0) e rate he1 hlen hp hr

theorem build_fold_curr_mono : ∀ (l : List (String × Quote))
    (acc : Graph × List String) (c : String),
    c ∈ acc.2 → c ∈ (l.foldl buildStep acc).2 := by
  intro l
  induction l with
  | nil => intro acc c h; exact h
  | cons e l ih =>
    intro acc c h
    rw [List.foldl_cons]
    exact ih (buildStep acc e) c (buildStep_curr_mono acc e c h)

theorem build_fold_curr_adds : ∀ (l : List (String × Quote))
    (acc : Graph × List String) (e : String × Quote),
    e ∈ l → ¬ e.1.length < 6 →
    (splitSymbol e.1).1 ∈ (l.foldl buildStep acc).2
    ∧ (splitSymbol e.1).2 ∈ (l.foldl buildStep acc).2 := by
  intro l
  induction l with
  | nil => intro acc e he; exact absurd he (List.not_mem_nil e)
  | cons e0 l ih =>
    intro acc e he hlen
    rw [List.foldl_cons]
    rcases List.mem_cons.mp he with he1 | he1
    · subst he1
      have hadds := buildStep_curr_adds acc e hlen
      exact ⟨build_fold_curr_mono l _ _ hadds.1, build_fold_curr_mono l _ _ hadds.2⟩
    · exact ih (buildStep acc e0) e he1 hlen

theorem build_fold_curr_elim : ∀ (l : List (String × Quote))
    (acc : Graph × List String) (c : String),
    c ∈ (l.foldl buildStep acc).2 →
    c ∈ acc.2 ∨ ∃ e ∈ l, 6 ≤ e.1.length
      ∧ (c = (splitSymbol e.1).1 ∨ c = (splitSymbol e.1).2) := by
  intro l
  induction l with
  | nil => intro acc c h; exact Or.inl h
  | cons e l ih =>
    intro acc c h
    rw [List.foldl_cons] at h
    rcases ih (buildStep acc e) c h with h1 | h1
    · rcases buildStep_curr_elim acc e c h1 with h2 | h2
      · exact Or.inl h2
      · exact Or.inr ⟨e, List.mem_cons_self e l, h2⟩
    · obtain ⟨e2, he2, hfe⟩ := h1
      exact Or.inr ⟨e2, List.mem_cons_of_mem e he2, hfe⟩

theorem build_fold_count : ∀ (l : List (String × Quote))
    (acc : Graph × List String), (graphKeys acc.1).Nodup →
    (graphKeys (l.foldl buildStep acc).1).Nodup
    ∧ graphEdgeCount (l.foldl buildStep acc).1
        = graphEdgeCount acc.1 + 2 * l.countP qualifiesEdge := by
  intro l
  induction l with
  | nil => intro acc hnd; exact ⟨hnd, by simp⟩
  | cons e l ih =>
    intro acc hnd
    rw [List.foldl_cons]
    have hstep := buildStep_count acc e hnd
    have hrec := ih (buildStep acc e) hstep.1
    refine ⟨hrec.1, ?_⟩
    rw [hrec.2, hstep.2, List.countP_cons]
    cases hq : qualifiesEdge e
    all_goals simp
    all_goals omega

/-- C5 (amended): for every table, the graph builder adds, for each symbol of
length at least 6 with a present positive price, exactly one forward edge
base→quote with multiplier `price * (1 - fee_rate)` and one reverse edge
quote→base with multiplier `(1 / price) * (1 - fee_rate)` (weights
`-ln` of these multipliers); every edge arises this way, so a symbol with an
absent or non-positive price contributes no edges — but its two split
currencies are still added as vertices, and every vertex comes from some
symbol of length at least 6. -/
theorem graph_builder_spec (tbl : Table) :
    (∀ u v m, edgeIn (buildGraphCurrencies tbl).1 u v m →
      ∃ e ∈ tbl, edgeFromEntry e u v m)
    ∧ (∀ e ∈ tbl, 6 ≤ e.1.length →
        (splitSymbol e.1).1 ∈ (buildGraphCurrencies tbl).2
        ∧ (splitSymbol e.1).2 ∈ (buildGraphCurrencies tbl).2)
    ∧ (∀ c, c ∈ (buildGraphCurrencies tbl).2 →
        ∃ e ∈ tbl, 6 ≤ e.1.length
          ∧ (c = (splitSymbol e.1).1 ∨ c = (splitSymbol e.1).2))
    ∧ (∀ e rate, e ∈ tbl → e.2.price = some rate → 0 < rate →
        6 ≤ e.1.length →
        edgeIn (buildGraphCurrencies tbl).1 (splitSymbol e.1).1
          (splitSymbol e.1).2 (rate * (1 - fee_rate))
        ∧ edgeIn (buildGraphCurrencies tbl).1 (splitSymbol e.1).2
          (splitSymbol e.1).1 ((1 / rate) * (1 - fee_rate)))
    ∧ graphEdgeCount (buildGraphCurrencies tbl).1
        = 2 * tbl.countP qualifiesEdge := by
  refine ⟨?_, ?_, ?_, ?_, ?_⟩
  · intro u v m h
    rcases build_fold_edge_elim tbl ([], []) u v m h with h1 | h1
    · obtain ⟨e, he, _⟩ := h1
      exact absurd he (List.not_mem_nil e)
    · exact h1
  · intro e he hlen
    exact build_fold_curr_adds tbl ([], []) e he (Nat.not_lt.mpr hlen)
  · intro c hc
    rcases build_fold_curr_elim tbl ([], []) c hc with h1 | h1
    · exact absurd h1 (List.not_mem_nil c)
    · exact h1
  · intro e rate he hp hr hlen
    exact build_fold_edge_complete tbl ([], []) e rate he
      (Nat.not_lt.mpr hlen) hp hr
  · have := build_fold_count tbl ([], []) (by simp [graphKeys])
    simpa [graphEdgeCount] using this.2

/-- A table whose only symbol has price 0. -/
def tblSkip : Table := [("BTCUSDT", ⟨some 0⟩)]

/-- Counterexample to C5 as stated: the zero-priced symbol "BTCUSDT"
contributes no edges, but it is not "skipped entirely" — its two vertices
BTC and USDT are still added to the currency set before the price check. -/
theorem builder_skip_cex :
    (buildGraphCurrencies tblSkip).1 = []
    ∧ (buildGraphCurrencies tblSkip).2 = ["BTC", "USDT"] := by
  constructor
  · with_unfolding_all decide
  · with_unfolding_all decide

/-- A one-symbol table for the builder witness. -/
def tblOneEdge : Table := [("AAABBB", ⟨some 2⟩)]

/-- Witness for C5 (amended) at a concrete table: both edges of "AAABBB" are
present with the specified multipliers. -/
theorem graph_builder_spec_witness :
    edgeIn (buildGraphCurrencies tblOneEdge).1 "AAA" "BBB" (2 * (1 - fee_rate))
    ∧ edgeIn (buildGraphCurrencies tblOneEdge).1 "BBB" "AAA"
        ((1 / 2) * (1 - fee_rate)) := by
  have h := (graph_builder_spec tblOneEdge).2.2.2.1 ("AAABBB", ⟨some 2⟩) 2
    (by simp [tblOneEdge]) rfl (by norm_num) (by decide)
  constructor
  · with_unfolding_all exact h.1
  · with_unfolding_all exact h.2

/-- C4 (amended): every edge multiplier of the graph builder derives from a
table entry with a present, strictly positive price (missing or non-positive
prices are silently skipped and never raise); every rate the resolver
produces derives from a present quote with a present price field — as the
stored price itself for the direct orientation (even when that price is not
positive), or as the reciprocal of a price that was checked to be nonzero
for the inverse orientation, so no division by zero ever occurs. -/
theorem rates_edges_from_quotes (tbl : Table) :
    (∀ u v m, edgeIn (buildGraphCurrencies tbl).1 u v m →
      ∃ e ∈ tbl, ∃ p : ℚ, e.2.price = some p ∧ 0 < p)
    ∧ (∀ b q r, resolveRate tbl b q = some r →
        lookupTable tbl (b ++ q) = some ⟨some r⟩
        ∨ ∃ p : ℚ, lookupTable tbl (q ++ b) = some ⟨some p⟩ ∧ p ≠ 0
            ∧ r = 1 / p) := by
  constructor
  · intro u v m h
    rcases build_fold_edge_elim tbl ([], []) u v m h with h1 | h1
    · obtain ⟨e, he, _⟩ := h1
      exact absurd he (List.not_mem_nil e)
    · obtain ⟨e, he, hlen, p, hp, hppos, _⟩ := h1
      exact ⟨e, he, p, hp, hppos⟩
  · intro b q r h
    cases hd : lookupTable tbl (b ++ q) with
    | some qu =>
      rw [resolveRate_direct tbl b q qu hd] at h
      left
      cases qu with
      | mk pr =>
        have h2 : pr = some r := h
        rw [h2]
    | none =>
      cases hi : lookupTable tbl (q ++ b) with
      | none =>
        rw [resolveRate_nothing tbl b q hd hi] at h
        exact Option.noConfusion h
      | some qu =>
        rw [resolveRate_inverse tbl b q qu hd hi] at h
        right
        cases hp : qu.price with
        | none =>
          rw [hp] at h
          exact Option.noConfusion h
        | some p =>
          rw [hp] at h
          simp only [Option.some_bind] at h
          by_cases h0 : p = 0
          · rw [h0] at h
            simp at h
          · rw [if_pos h0] at h
            refine ⟨p, ?_, h0, (Option.some.injEq _ _ ▸ h).symm⟩
            cases qu with
            | mk pr =>
              have h2 : pr = some p := hp
              rw [h2]

/-- A table storing a zero price in direct orientation. -/
def tblZeroDirect : Table := [("AAABBB", ⟨some 0⟩)]

/-- Counterexample to C4 as stated: the resolver produces the rate `0` from a
quote whose price is `0`, so a non-positive quote does yield a rate in the
direct orientation. -/
theorem resolver_nonpositive_cex :
    lookupTable tblZeroDirect "AAABBB" = some ⟨some 0⟩
    ∧ resolveRate tblZeroDirect "AAA" "BBB" = some 0 := by
  constructor
  · with_unfolding_all decide
  · with_unfolding_all decide

/-- A one-symbol table for the resolver-soundness witness. -/
def tblW4 : Table := [("CCCDDD", ⟨some 4⟩)]

/-- Witness for C4 (amended) at a concrete table. -/
theorem rates_edges_from_quotes_witness :
    lookupTable tblW4 ("CCC" ++ "DDD") = some ⟨some 4⟩
    ∨ ∃ p : ℚ, lookupTable tblW4 ("DDD" ++ "CCC") = some ⟨some p⟩ ∧ p ≠ 0
        ∧ (4 : ℚ) = 1 / p :=
  (rates_edges_from_quotes tblW4).2 "CCC" "DDD" 4 (by with_unfolding_all decide)

/-- Python dict read `m[k]`, total with a default (every key the algorithm
reads was initialized, so the default is never observed). -/
def dictGet {α : Type} (m : List (String × α)) (k : String) (d : α) : α :=
  ((m.find? (fun e => e.1 = k)).map (fun e => e.2)).getD d

/-- Python dict write `m[k] = v`: overwrite in place, append when absent. -/
def dictSet {α : Type} (m : List (String × α)) (k : String) (v : α) :
    List (String × α) :=
  if m.any (fun e => e.1 = k) then
    m.map (fun e => if e.1 = k then (e.1, v) else e)
  else m ++ [(k, v)]

/-- Python `distances = \x7bc: inf for c in currencies\x7d; distances[start] = 0`, in the
multiplicative representation (`inf ↦ 0`, `0 ↦ 1`). -/
def bfInitDist (currencies : List String) (start : String) :
    List (String × ℚ) :=
  dictSet (currencies.map (fun c => (c, (0 : ℚ)))) start 1

/-- Python `predecessors = \x7bc: None for c in currencies\x7d`. -/
def bfInitPred (currencies : List String) : List (String × Option String) :=
  currencies.map (fun c => (c, (none : Option String)))

/-- The Bellman-Ford state: the distance dict (multiplicative) and the
predecessor dict. -/
abbrev BFState := List (String × ℚ) × List (String × Option String)

/-- One relaxation test of edge `u → v` with multiplier `m`:
`distances[u] + w < distances[v]` becomes `dist u * m > dist v`. -/
def relaxEdge (st : BFState) (u : String) (e : String × ℚ) : BFState :=
  if dictGet st.1 u 0 * e.2 > dictGet st.1 e.1 0 then
    (dictSet st.1 e.1 (dictGet st.1 u 0 * e.2), dictSet st.2 e.1 (some u))
  else st

/-- One full pass over every edge, in graph insertion order, updating the
state in place as Python does. -/
def relaxPass (g : Graph) (st : BFState) : BFState :=
  g.foldl (fun st2 ge => ge.2.foldl (fun st3 e => relaxEdge st3 ge.1 e) st2) st

/-- Python `for _ in range(n)`: relax every edge once per round. -/
def relaxRounds (g : Graph) : Nat → BFState → BFState
  | 0, st => st
  | n + 1, st => relaxRounds g n (relaxPass g st)

/-- The final negative-cycle scan: the first edge `(u, v, m)` in graph order
that still relaxes, if any. -/
def findRelaxableAdj (d : List (String × ℚ)) (u : String) :
    List (String × ℚ) → Option (String × String × ℚ)
  | [] => none
  | e :: rest =>
    if dictGet d u 0 * e.2 > dictGet d e.1 0 then some (u, e.1, e.2)
    else findRelaxableAdj d u rest

/-- Scan all adjacency lists for the first still-relaxable edge. -/
def findRelaxable (d : List (String × ℚ)) : Graph → Option (String × String × ℚ)
  | [] => none
  | ge :: rest =>
    match findRelaxableAdj d ge.1 ge.2 with
    | some r => some r
    | none => findRelaxable d rest

/-- First loop of `reconstruct_cycle`: walk predecessor links from the start
vertex until a vertex repeats (returning it) or a `None` link is hit.  The
fuel bound only guards Lean termination; the caller passes more fuel than
there are distinct vertices, so the walk always ends by repeat or `None`
first. -/
def walkUntilRepeat (pm : List (String × Option String)) :
    Nat → List String → String → Option String
  | 0, _, _ => none
  | fuel + 1, visited, current =>
    if current ∈ visited then some current
    else
      match dictGet pm current none with
      | none => none
      | some nxt => walkUntilRepeat pm fuel (current :: visited) nxt

/-- Second loop of `reconstruct_cycle`: collect predecessors from the cycle
re-entry point back around to itself, then reverse. -/
def collectCycle (pm : List (String × Option String)) :
    Nat → String → String → List String → Option (List String)
  | 0, _, _, _ => none
  | fuel + 1, cycleStart, current, acc =>
    if current = cycleStart then some acc.reverse
    else
      match dictGet pm current none with
      | none => none
      | some nxt => collectCycle pm fuel cycleStart nxt (acc ++ [current])

/-- Transcription of `ArbitrageEngine.reconstruct_cycle`. -/
def reconstruct_cycle (pm : List (String × Option String))
    (start_vertex : String) (fuel : Nat) : Option (List String) :=
  match walkUntilRepeat pm fuel [] start_vertex with
  | none => none
  | some cycleStart =>
    match dictGet pm cycleStart none with
    | none => none
    | some nxt => collectCycle pm fuel cycleStart nxt [cycleStart]

/-- The cycle opportunity handed to the paper trader. -/
structure CycleOpp where
  cycle : List String
  net_profit : ℚ
deriving DecidableEq

/-- Outcome of processing one start vertex: no still-relaxable edge (the
loop moves on), an exception raised while replaying the profit, or the
unconditional `return` after the first relaxable edge — possibly after
emitting an opportunity. -/
inductive StartOutcome where
  | noRelax
  | errored
  | finished (emitted : Option CycleOpp)
deriving DecidableEq

/-- Result of the whole detection call: an exception escaping to the
scheduler, or a normal return with the at-most-one emitted opportunity. -/
inductive DetectResult where
  | errored
  | returned (emitted : Option CycleOpp)
deriving DecidableEq

/-- The Bellman-Ford state for one start vertex after the `|V| - 1`
relaxation rounds. -/
def bfRelaxedState (g : Graph) (currencies : List String) (rounds : Nat)
    (start : String) : BFState :=
  relaxRounds g rounds (bfInitDist currencies start, bfInitPred currencies)

/-- Process one start vertex of `run_bellman_ford_arbitrage_check`:
initialize, relax `|V| - 1` rounds, look for a still-relaxable edge; if one
exists, reconstruct a cycle from its head, replay its profit, emit exactly
when the profit exceeds 1, and return unconditionally. -/
def bfProcessStart (tbl : Table) (g : Graph) (currencies : List String)
    (rounds fuel : Nat) (start : String) : StartOutcome :=
  match findRelaxable (bfRelaxedState g currencies rounds start).1 g with
  | none => .noRelax
  | some uvm =>
    match reconstruct_cycle (bfRelaxedState g currencies rounds start).2
        uvm.2.1 fuel with
    | none => .finished none
    | some cycle =>
      match calculate_cycle_profit tbl cycle with
      | none => .errored
      | some profit =>
        .finished (if 1 < profit then some ⟨cycle, profit - 1⟩ else none)

/-- The outer loop over start vertices: the first start vertex that is not
`noRelax` decides the whole call. -/
def bfScanStarts (tbl : Table) (g : Graph) (currencies : List String)
    (rounds fuel : Nat) : List String → DetectResult
  | [] => .returned none
  | s :: rest =>
    match bfProcessStart tbl g currencies rounds fuel s with
    | .noRelax => bfScanStarts tbl g currencies rounds fuel rest
    | .errored => .errored
    | .finished e => .returned e

/-- Transcription of `ArbitrageEngine.run_bellman_ford_arbitrage_check`.
`order` is the iteration order of the Python `set` of currencies — an
unspecified permutation of the accumulated currency list — taken here as an
explicit parameter. -/
def run_bellman_ford_arbitrage_check (tbl : Table) (order : List String) :
    DetectResult :=
  bfScanStarts tbl (buildGraphCurrencies tbl).1 order (order.length - 1)
    (order.length + 2) order

theorem bfProcessStart_eq_noRelax (tbl : Table) (g : Graph)
    (cur : List String) (R F : Nat) (s : String)
    (hf : findRelaxable (bfRelaxedState g cur R s).1 g = none) :
    bfProcessStart tbl g cur R F s = .noRelax := by
  unfold bfProcessStart
  rw [hf]

theorem bfProcessStart_eq_norecon (tbl : Table) (g : Graph)
    (cur : List String) (R F : Nat) (s : String) (uvm : String × String × ℚ)
    (hf : findRelaxable (bfRelaxedState g cur R s).1 g = some uvm)
    (hrec : reconstruct_cycle (bfRelaxedState g cur R s).2 uvm.2.1 F = none) :
    bfProcessStart tbl g cur R F s = .finished none := by
  unfold bfProcessStart
  rw [hf]
  show (match reconstruct_cycle (bfRelaxedState g cur R s).2 uvm.2.1 F with
    | none => StartOutcome.finished none
    | some cycle =>
      match calculate_cycle_profit tbl cycle with
      | none => StartOutcome.errored
      | some profit =>
        .finished (if 1 < profit then some ⟨cycle, profit - 1⟩ else none)) = _
  rw [hrec]

theorem bfProcessStart_eq_errored (tbl : Table) (g : Graph)
    (cur : List String) (R F : Nat) (s : String) (uvm : String × String × ℚ)
    (cycle : List String)
    (hf : findRelaxable (bfRelaxedState g cur R s).1 g = some uvm)
    (hrec : reconstruct_cycle (bfRelaxedState g cur R s).2 uvm.2.1 F
      = some cycle)
    (hcp : calculate_cycle_profit tbl cycle = none) :
    bfProcessStart tbl g cur R F s = .errored := by
  unfold bfProcessStart
  rw [hf]
  show (match reconstruct_cycle (bfRelaxedState g cur R s).2 uvm.2.1 F with
    | none => StartOutcome.finished none
    | some cycle =>
      match calculate_cycle_profit tbl cycle with
      | none => StartOutcome.errored
      | some profit =>
        .finished (if 1 < profit then some ⟨cycle, profit - 1⟩ else none)) = _
  rw [hrec]
  show (match calculate_cycle_profit tbl cycle with
    | none => StartOutcome.errored
    | some profit =>
      .finished (if 1 < profit then some ⟨cycle, profit - 1⟩ else none)) = _
  rw [hcp]

theorem bfProcessStart_eq_profit (tbl : Table) (g : Graph)
    (cur : List String) (R F : Nat) (s : String) (uvm : String × String × ℚ)
    (cycle : List String) (profit : ℚ)
    (hf : findRelaxable (bfRelaxedState g cur R s).1 g = some uvm)
    (hrec : reconstruct_cycle (bfRelaxedState g cur R s).2 uvm.2.1 F
      = some cycle)
    (hcp : calculate_cycle_profit tbl cycle = some profit) :
    bfProcessStart tbl g cur R F s
      = .finished (if 1 < profit then some ⟨cycle, profit - 1⟩ else none) := by
  unfold bfProcessStart
  rw [hf]
  show (match reconstruct_cycle (bfRelaxedState g cur R s).2 uvm.2.1 F with
    | none => StartOutcome.finished none
    | some cycle =>
      match calculate_cycle_profit tbl cycle with
      | none => StartOutcome.errored
      | some profit =>
        .finished (if 1 < profit then some ⟨cycle, profit - 1⟩ else none)) = _
  rw [hrec]
  show (match calculate_cycle_profit tbl cycle with
    | none => StartOutcome.errored
    | some profit =>
      .finished (if 1 < profit then some ⟨cycle, profit - 1⟩ else none)) = _
  rw [hcp]

theorem bfProcessStart_finished_inv (tbl : Table) (g : Graph)
    (cur : List String) (R F : Nat) (s : String) (c : List String) (p : ℚ)
    (h : bfProcessStart tbl g cur R F s = .finished (some ⟨c, p⟩)) :
    calculate_cycle_profit tbl c = some (p + 1) ∧ 1 < p + 1 := by
  cases hf : findRelaxable (bfRelaxedState g cur R s).1 g with
  | none =>
    rw [bfProcessStart_eq_noRelax tbl g cur R F s hf] at h
    exact StartOutcome.noConfusion h
  | some uvm =>
    cases hrec : reconstruct_cycle (bfRelaxedState g cur R s).2 uvm.2.1 F with
    | none =>
      rw [bfProcessStart_eq_norecon tbl g cur R F s uvm hf hrec] at h
      simp at h
    | some cycle =>
      cases hcp : calculate_cycle_profit tbl cycle with
      | none =>
        rw [bfProcessStart_eq_errored tbl g cur R F s uvm cycle hf hrec hcp] at h
        exact StartOutcome.noConfusion h
      | some profit =>
        rw [bfProcessStart_eq_profit tbl g cur R F s uvm cycle profit hf hrec
          hcp] at h
        by_cases hlt : 1 < profit
        · rw [if_pos hlt] at h
          simp only [StartOutcome.finished.injEq, Option.some.injEq,
            CycleOpp.mk.injEq] at h
          obtain ⟨hc, hp⟩ := h
          subst hc
          have hpe : p + 1 = profit := by rw [← hp]; ring
          rw [hpe, hcp]
          exact ⟨rfl, hlt⟩
        · rw [if_neg hlt] at h
          simp at h

theorem bfScan_all_noRelax (tbl : Table) (g : Graph) (cur : List String)
    (R F : Nat) : ∀ starts : List String,
    (∀ s ∈ starts, bfProcessStart tbl g cur R F s = .noRelax) →
    bfScanStarts tbl g cur R F starts = .returned none := by
  intro starts
  induction starts with
  | nil => intro _; rfl
  | cons s rest ih =>
    intro hall
    show (match bfProcessStart tbl g cur R F s with
      | .noRelax => bfScanStarts tbl g cur R F rest
      | .errored => DetectResult.errored
      | .finished e => DetectResult.returned e) = DetectResult.returned none
    rw [hall s (List.mem_cons_self s rest)]
    exact ih (fun t ht => hall t (List.mem_cons_of_mem s ht))

theorem bfScan_first_decides (tbl : Table) (g : Graph) (cur : List String)
    (R F : Nat) : ∀ (pre : List String) (s : String) (post : List String)
    (r : Option CycleOpp),
    (∀ t ∈ pre, bfProcessStart tbl g cur R F t = .noRelax) →
    bfProcessStart tbl g cur R F s = .finished r →
    bfScanStarts tbl g cur R F (pre ++ s :: post) = .returned r := by
  intro pre
  induction pre with
  | nil =>
    intro s post r _ hs
    show (match bfProcessStart tbl g cur R F s with
      | .noRelax => bfScanStarts tbl g cur R F post
      | .errored => DetectResult.errored
      | .finished e => DetectResult.returned e) = DetectResult.returned r
    rw [hs]
  | cons t pre ih =>
    intro s post r hall hs
    show (match bfProcessStart tbl g cur R F t with
      | .noRelax => bfScanStarts tbl g cur R F (pre ++ s :: post)
      | .errored => DetectResult.errored
      | .finished e => DetectResult.returned e) = DetectResult.returned r
    rw [hall t (List.mem_cons_self t pre)]
    exact ih s post r (fun x hx => hall x (List.mem_cons_of_mem t hx)) hs

/-- A two-component table: the AAA/BBB component has a negative graph cycle
whose replay is unprofitable (both stored prices 1/2), while the CCC/DDD
component has a genuinely profitable cycle. -/
def tblTwoComp : Table :=
  [("AAABBB", ⟨some (1 / 2)⟩), ("BBBAAA", ⟨some (1 / 2)⟩),
   ("CCCDDD", ⟨some 2⟩), ("DDDCCC", ⟨some 1⟩)]

/-- One possible iteration order of the currency set of `tblTwoComp`. -/
def orderA : List String := ["AAA", "BBB", "CCC", "DDD"]

/-- Another possible iteration order of the same currency set. -/
def orderB : List String := ["CCC", "DDD", "AAA", "BBB"]

/-- The graph the builder produces from `tblTwoComp`. -/
def grTwoComp : Graph :=
  [("AAA", [("BBB", 999 / 2000), ("BBB", 999 / 500)]),
   ("BBB", [("AAA", 999 / 500), ("AAA", 999 / 2000)]),
   ("CCC", [("DDD", 999 / 500), ("DDD", 999 / 1000)]),
   ("DDD", [("CCC", 999 / 2000), ("CCC", 999 / 1000)])]

set_option maxRecDepth 4000 in
theorem grTwoComp_eq : buildGraphCurrencies tblTwoComp = (grTwoComp, orderA) := by
  with_unfolding_all rfl

/-- The Bellman-Ford state from start AAA (order `orderA`) after the three
relaxation rounds. -/
def stA3 : BFState :=
  ([("AAA", 994014980014994001 / 15625000000000000),
    ("BBB", 995009990004999 / 31250000000000), ("CCC", 0), ("DDD", 0)],
   [("AAA", some "BBB"), ("BBB", some "AAA"), ("CCC", none), ("DDD", none)])

set_option maxRecDepth 4000 in
theorem stA3_eq : bfRelaxedState grTwoComp orderA 3 "AAA" = stA3 := by
  have e0 : (bfInitDist orderA "AAA", bfInitPred orderA)
      = (([("AAA", 1), ("BBB", 0), ("CCC", 0), ("DDD", 0)],
          [("AAA", none), ("BBB", none), ("CCC", none), ("DDD", none)]) : BFState) := by
    with_unfolding_all rfl
  have e1 : relaxPass grTwoComp
      ([("AAA", 1), ("BBB", 0), ("CCC", 0), ("DDD", 0)],
       [("AAA", none), ("BBB", none), ("CCC", none), ("DDD", none)])
      = ([("AAA", 998001 / 250000), ("BBB", 999 / 500), ("CCC", 0), ("DDD", 0)],
         [("AAA", some "BBB"), ("BBB", some "AAA"), ("CCC", none), ("DDD", none)]) := by
    with_unfolding_all rfl
  have e2 : relaxPass grTwoComp
      ([("AAA", 998001 / 250000), ("BBB", 999 / 500), ("CCC", 0), ("DDD", 0)],
       [("AAA", some "BBB"), ("BBB", some "AAA"), ("CCC", none), ("DDD", none)])
      = ([("AAA", 996005996001 / 62500000000), ("BBB", 997002999 / 125000000),
          ("CCC", 0), ("DDD", 0)],
         [("AAA", some "BBB"), ("BBB", some "AAA"), ("CCC", none), ("DDD", none)]) := by
    with_unfolding_all rfl
  have e3 : relaxPass grTwoComp
      ([("AAA", 996005996001 / 62500000000), ("BBB", 997002999 / 125000000),
        ("CCC", 0), ("DDD", 0)],
       [("AAA", some "BBB"), ("BBB", some "AAA"), ("CCC", none), ("DDD", none)])
      = stA3 := by
    with_unfolding_all rfl
  show relaxRounds grTwoComp 3 (bfInitDist orderA "AAA", bfInitPred orderA) = stA3
  rw [e0]
  show relaxRounds grTwoComp 2 (relaxPass grTwoComp
    ([("AAA", 1), ("BBB", 0), ("CCC", 0), ("DDD", 0)],
     [("AAA", none), ("BBB", none), ("CCC", none), ("DDD", none)])) = stA3
  rw [e1]
  show relaxRounds grTwoComp 1 (relaxPass grTwoComp
    ([("AAA", 998001 / 250000), ("BBB", 999 / 500), ("CCC", 0), ("DDD", 0)],
     [("AAA", some "BBB"), ("BBB", some "AAA"), ("CCC", none), ("DDD", none)])) = stA3
  rw [e2]
  show relaxRounds grTwoComp 0 (relaxPass grTwoComp
    ([("AAA", 996005996001 / 62500000000), ("BBB", 997002999 / 125000000),
      ("CCC", 0), ("DDD", 0)],
     [("AAA", some "BBB"), ("BBB", some "AAA"), ("CCC", none), ("DDD", none)])) = stA3
  rw [e3]
  rfl

/-- Processing start AAA under `orderA` hits the first still-relaxable edge
AAA→BBB, reconstructs the unprofitable cycle [AAA, BBB], and returns without
emitting. -/
theorem bfA_finished :
    bfProcessStart tblTwoComp grTwoComp orderA 3 6 "AAA" = .finished none := by
  have hf : findRelaxable stA3.1 grTwoComp
      = some ("AAA", "BBB", 999 / 500) := by
    with_unfolding_all rfl
  have hrec : reconstruct_cycle stA3.2 "BBB" 6 = some ["AAA", "BBB"] := by
    with_unfolding_all rfl
  have hcp : calculate_cycle_profit tblTwoComp ["AAA", "BBB"]
      = some (998001 / 4000000) := by
    with_unfolding_all rfl
  have hf2 : findRelaxable (bfRelaxedState grTwoComp orderA 3 "AAA").1 grTwoComp
      = some ("AAA", "BBB", 999 / 500) := by rw [stA3_eq]; exact hf
  have hrec2 : reconstruct_cycle (bfRelaxedState grTwoComp orderA 3 "AAA").2
      ("AAA", "BBB", (999 : ℚ) / 500).2.1 6 = some ["AAA", "BBB"] := by
    rw [stA3_eq]; exact hrec
  have h := bfProcessStart_eq_profit tblTwoComp grTwoComp orderA 3 6 "AAA"
    ("AAA", "BBB", 999 / 500) ["AAA", "BBB"] (998001 / 4000000) hf2 hrec2 hcp
  rw [h]
  norm_num

/-- The Bellman-Ford state from start CCC under `orderA` after the three
relaxation rounds. -/
def stD3 : BFState :=
  ([("AAA", 0), ("BBB", 0),
    ("CCC", 994014980014994001 / 125000000000000000),
    ("DDD", 995009990004999 / 125000000000000)],
   [("AAA", none), ("BBB", none), ("CCC", some "DDD"), ("DDD", some "CCC")])

set_option maxRecDepth 4000 in
theorem stD3_eq : bfRelaxedState grTwoComp orderA 3 "CCC" = stD3 := by
  have e0 : (bfInitDist orderA "CCC", bfInitPred orderA)
      = (([("AAA", 0), ("BBB", 0), ("CCC", 1), ("DDD", 0)],
          [("AAA", none), ("BBB", none), ("CCC", none), ("DDD", none)]) : BFState) := by
    with_unfolding_all rfl
  have e1 : relaxPass grTwoComp
      ([("AAA", 0), ("BBB", 0), ("CCC", 1), ("DDD", 0)],
       [("AAA", none), ("BBB", none), ("CCC", none), ("DDD", none)])
      = ([("AAA", 0), ("BBB", 0), ("CCC", 998001 / 500000), ("DDD", 999 / 500)],
         [("AAA", none), ("BBB", none), ("CCC", some "DDD"), ("DDD", some "CCC")]) := by
    with_unfolding_all rfl
  have e2 : relaxPass grTwoComp
      ([("AAA", 0), ("BBB", 0), ("CCC", 998001 / 500000), ("DDD", 999 / 500)],
       [("AAA", none), ("BBB", none), ("CCC", some "DDD"), ("DDD", some "CCC")])
      = ([("AAA", 0), ("BBB", 0), ("CCC", 996005996001 / 250000000000),
          ("DDD", 997002999 / 250000000)],
         [("AAA", none), ("BBB", none), ("CCC", some "DDD"), ("DDD", some "CCC")]) := by
    with_unfolding_all rfl
  have e3 : relaxPass grTwoComp
      ([("AAA", 0), ("BBB", 0), ("CCC", 996005996001 / 250000000000),
        ("DDD", 997002999 / 250000000)],
       [("AAA", none), ("BBB", none), ("CCC", some "DDD"), ("DDD", some "CCC")])
      = stD3 := by
    with_unfolding_all rfl
  show relaxRounds grTwoComp 3 (bfInitDist orderA "CCC", bfInitPred orderA) = stD3
  rw [e0]
  show relaxRounds grTwoComp 2 (relaxPass grTwoComp
    ([("AAA", 0), ("BBB", 0), ("CCC", 1), ("DDD", 0)],
     [("AAA", none), ("BBB", none), ("CCC", none), ("DDD", none)])) = stD3
  rw [e1]
  show relaxRounds grTwoComp 1 (relaxPass grTwoComp
    ([("AAA", 0), ("BBB", 0), ("CCC", 998001 / 500000), ("DDD", 999 / 500)],
     [("AAA", none), ("BBB", none), ("CCC", some "DDD"), ("DDD", some "CCC")])) = stD3
  rw [e2]
  show relaxRounds grTwoComp 0 (relaxPass grTwoComp
    ([("AAA", 0), ("BBB", 0), ("CCC", 996005996001 / 250000000000),
      ("DDD", 997002999 / 250000000)],
     [("AAA", none), ("BBB", none), ("CCC", some "DDD"), ("DDD", some "CCC")])) = stD3
  rw [e3]
  rfl

/-- Processing start CCC under `orderA` finds the relaxable edge CCC→DDD,
reconstructs the cycle [CCC, DDD], and would emit it with net profit
498001/500000. -/
theorem bfD_finished :
    bfProcessStart tblTwoComp grTwoComp orderA 3 6 "CCC"
      = .finished (some ⟨["CCC", "DDD"], 498001 / 500000⟩) := by
  have hf : findRelaxable stD3.1 grTwoComp
      = some ("CCC", "DDD", 999 / 500) := by
    with_unfolding_all rfl
  have hrec : reconstruct_cycle stD3.2 "DDD" 6 = some ["CCC", "DDD"] := by
    with_unfolding_all rfl
  have hcp : calculate_cycle_profit tblTwoComp ["CCC", "DDD"]
      = some (998001 / 500000) := by
    with_unfolding_all rfl
  have hf2 : findRelaxable (bfRelaxedState grTwoComp orderA 3 "CCC").1 grTwoComp
      = some ("CCC", "DDD", 999 / 500) := by rw [stD3_eq]; exact hf
  have hrec2 : reconstruct_cycle (bfRelaxedState grTwoComp orderA 3 "CCC").2
      ("CCC", "DDD", (999 : ℚ) / 500).2.1 6 = some ["CCC", "DDD"] := by
    rw [stD3_eq]; exact hrec
  have h := bfProcessStart_eq_profit tblTwoComp grTwoComp orderA 3 6 "CCC"
    ("CCC", "DDD", 999 / 500) ["CCC", "DDD"] (998001 / 500000) hf2 hrec2 hcp
  rw [h]
  norm_num

/-- The Bellman-Ford state from start CCC under `orderB` after the three
relaxation rounds. -/
def stC3 : BFState :=
  ([("CCC", 994014980014994001 / 125000000000000000),
    ("DDD", 995009990004999 / 125000000000000), ("AAA", 0), ("BBB", 0)],
   [("CCC", some "DDD"), ("DDD", some "CCC"), ("AAA", none), ("BBB", none)])

set_option maxRecDepth 4000 in
theorem stC3_eq : bfRelaxedState grTwoComp orderB 3 "CCC" = stC3 := by
  have e0 : (bfInitDist orderB "CCC", bfInitPred orderB)
      = (([("CCC", 1), ("DDD", 0), ("AAA", 0), ("BBB", 0)],
          [("CCC", none), ("DDD", none), ("AAA", none), ("BBB", none)]) : BFState) := by
    with_unfolding_all rfl
  have e1 : relaxPass grTwoComp
      ([("CCC", 1), ("DDD", 0), ("AAA", 0), ("BBB", 0)],
       [("CCC", none), ("DDD", none), ("AAA", none), ("BBB", none)])
      = ([("CCC", 998001 / 500000), ("DDD", 999 / 500), ("AAA", 0), ("BBB", 0)],
         [("CCC", some "DDD"), ("DDD", some "CCC"), ("AAA", none), ("BBB", none)]) := by
    with_unfolding_all rfl
  have e2 : relaxPass grTwoComp
      ([("CCC", 998001 / 500000), ("DDD", 999 / 500), ("AAA", 0), ("BBB", 0)],
       [("CCC", some "DDD"), ("DDD", some "CCC"), ("AAA", none), ("BBB", none)])
      = ([("CCC", 996005996001 / 250000000000), ("DDD", 997002999 / 250000000),
          ("AAA", 0), ("BBB", 0)],
         [("CCC", some "DDD"), ("DDD", some "CCC"), ("AAA", none), ("BBB", none)]) := by
    with_unfolding_all rfl
  have e3 : relaxPass grTwoComp
      ([("CCC", 996005996001 / 250000000000), ("DDD", 997002999 / 250000000),
        ("AAA", 0), ("BBB", 0)],
       [("CCC", some "DDD"), ("DDD", some "CCC"), ("AAA", none), ("BBB", none)])
      = stC3 := by
    with_unfolding_all rfl
  show relaxRounds grTwoComp 3 (bfInitDist orderB "CCC", bfInitPred orderB) = stC3
  rw [e0]
  show relaxRounds grTwoComp 2 (relaxPass grTwoComp
    ([("CCC", 1), ("DDD", 0), ("AAA", 0), ("BBB", 0)],
     [("CCC", none), ("DDD", none), ("AAA", none), ("BBB", none)])) = stC3
  rw [e1]
  show relaxRounds grTwoComp 1 (relaxPass grTwoComp
    ([("CCC", 998001 / 500000), ("DDD", 999 / 500), ("AAA", 0), ("BBB", 0)],
     [("CCC", some "DDD"), ("DDD", some "CCC"), ("AAA", none), ("BBB", none)])) = stC3
  rw [e2]
  show relaxRounds grTwoComp 0 (relaxPass grTwoComp
    ([("CCC", 996005996001 / 250000000000), ("DDD", 997002999 / 250000000),
      ("AAA", 0), ("BBB", 0)],
     [("CCC", some "DDD"), ("DDD", some "CCC"), ("AAA", none), ("BBB", none)])) = stC3
  rw [e3]
  rfl

/-- Processing start CCC under `orderB` emits the profitable cycle. -/
theorem bfC_finished :
    bfProcessStart tblTwoComp grTwoComp orderB 3 6 "CCC"
      = .finished (some ⟨["CCC", "DDD"], 498001 / 500000⟩) := by
  have hf : findRelaxable stC3.1 grTwoComp
      = some ("CCC", "DDD", 999 / 500) := by
    with_unfolding_all rfl
  have hrec : reconstruct_cycle stC3.2 "DDD" 6 = some ["CCC", "DDD"] := by
    with_unfolding_all rfl
  have hcp : calculate_cycle_profit tblTwoComp ["CCC", "DDD"]
      = some (998001 / 500000) := by
    with_unfolding_all rfl
  have hf2 : findRelaxable (bfRelaxedState grTwoComp orderB 3 "CCC").1 grTwoComp
      = some ("CCC", "DDD", 999 / 500) := by rw [stC3_eq]; exact hf
  have hrec2 : reconstruct_cycle (bfRelaxedState grTwoComp orderB 3 "CCC").2
      ("CCC", "DDD", (999 : ℚ) / 500).2.1 6 = some ["CCC", "DDD"] := by
    rw [stC3_eq]; exact hrec
  have h := bfProcessStart_eq_profit tblTwoComp grTwoComp orderB 3 6 "CCC"
    ("CCC", "DDD", 999 / 500) ["CCC", "DDD"] (998001 / 500000) hf2 hrec2 hcp
  rw [h]
  norm_num

/-- The whole detection call under `orderA` stops at start AAA and returns
absent. -/
theorem runA_eq :
    run_bellman_ford_arbitrage_check tblTwoComp orderA = .returned none := by
  have h := bfScan_first_decides tblTwoComp grTwoComp orderA 3 6 []
    "AAA" ["BBB", "CCC", "DDD"] none
    (fun t ht => absurd ht (List.not_mem_nil t)) bfA_finished
  have h2 : bfScanStarts tblTwoComp grTwoComp orderA 3 6 orderA
      = DetectResult.returned none := h
  unfold run_bellman_ford_arbitrage_check
  rw [congrArg Prod.fst grTwoComp_eq]
  exact h2

/-- The whole detection call under `orderB` emits the profitable cycle. -/
theorem runB_eq :
    run_bellman_ford_arbitrage_check tblTwoComp orderB
      = .returned (some ⟨["CCC", "DDD"], 498001 / 500000⟩) := by
  have h := bfScan_first_decides tblTwoComp grTwoComp orderB 3 6 []
    "CCC" ["DDD", "AAA", "BBB"] (some ⟨["CCC", "DDD"], 498001 / 500000⟩)
    (fun t ht => absurd ht (List.not_mem_nil t)) bfC_finished
  have h2 : bfScanStarts tblTwoComp grTwoComp orderB 3 6 orderB
      = DetectResult.returned (some ⟨["CCC", "DDD"], 498001 / 500000⟩) := h
  unfold run_bellman_ford_arbitrage_check
  rw [congrArg Prod.fst grTwoComp_eq]
  exact h2

/-- C1 (amended): the detection call examines start vertices in order only
until the FIRST one with a still-relaxable edge after convergence; that
vertex alone decides the call — one opportunity (with
`netProfitFraction = profit - 1` and replayed profit > 1) is emitted exactly
when its first relaxable edge reconstructs a cycle whose replayed profit
exceeds 1, and the call then returns unconditionally, never examining the
remaining start vertices; it returns absent when no start vertex has a
relaxable edge, or when the first such vertex's reconstruction fails or
replays unprofitably. -/
theorem bf_detection_spec (tbl : Table) (order : List String) :
    ((∀ s ∈ order, bfProcessStart tbl (buildGraphCurrencies tbl).1 order
        (order.length - 1) (order.length + 2) s = .noRelax) →
      run_bellman_ford_arbitrage_check tbl order = .returned none)
    ∧ (∀ (pre : List String) (s : String) (post : List String)
        (r : Option CycleOpp), order = pre ++ s :: post →
        (∀ t ∈ pre, bfProcessStart tbl (buildGraphCurrencies tbl).1 order
          (order.length - 1) (order.length + 2) t = .noRelax) →
        bfProcessStart tbl (buildGraphCurrencies tbl).1 order
          (order.length - 1) (order.length + 2) s = .finished r →
        run_bellman_ford_arbitrage_check tbl order = .returned r)
    ∧ (∀ (s : String) (c : List String) (p : ℚ),
        bfProcessStart tbl (buildGraphCurrencies tbl).1 order
          (order.length - 1) (order.length + 2) s = .finished (some ⟨c, p⟩) →
        calculate_cycle_profit tbl c = some (p + 1) ∧ 1 < p + 1) := by
  refine ⟨?_, ?_, ?_⟩
  · intro hall
    unfold run_bellman_ford_arbitrage_check
    exact bfScan_all_noRelax tbl (buildGraphCurrencies tbl).1 order
      (order.length - 1) (order.length + 2) order hall
  · intro pre s post r heq hall hs
    unfold run_bellman_ford_arbitrage_check
    rw [heq]
    rw [heq] at hall hs
    exact bfScan_first_decides tbl
      (buildGraphCurrencies tbl).1 (pre ++ s :: post)
      ((pre ++ s :: post).length - 1) ((pre ++ s :: post).length + 2)
      pre s post r hall hs
  · intro s c p h
    exact bfProcessStart_finished_inv tbl (buildGraphCurrencies tbl).1 order
      (order.length - 1) (order.length + 2) s c p h

set_option maxRecDepth 4000 in
/-- Witness for C1 (amended): on a one-symbol table no start vertex has a
relaxable edge, and the call returns absent. -/
theorem bf_detection_spec_witness :
    run_bellman_ford_arbitrage_check tblOneEdge ["AAA", "BBB"]
      = .returned none :=
  (bf_detection_spec tblOneEdge ["AAA", "BBB"]).1 (by
    intro s hs
    rcases List.mem_cons.mp hs with h1 | h1
    · subst h1
      with_unfolding_all decide
    · rcases List.mem_cons.mp h1 with h2 | h2
      · subst h2
        with_unfolding_all decide
      · exact absurd h2 (List.not_mem_nil s))

/-- Counterexample to C1 as stated: on `tblTwoComp` with start order
`orderA`, the call returns absent — yet the later start vertex CCC yields a
reconstructible cycle [CCC, DDD] whose replayed profit 998001/500000 exceeds
1.  The call stopped at start AAA, whose first relaxable edge reconstructs
an unprofitable cycle, and never examined CCC. -/
theorem bf_early_return_cex :
    run_bellman_ford_arbitrage_check tblTwoComp orderA = .returned none
    ∧ "CCC" ∈ orderA
    ∧ bfProcessStart tblTwoComp (buildGraphCurrencies tblTwoComp).1 orderA
        (orderA.length - 1) (orderA.length + 2) "CCC"
      = .finished (some ⟨["CCC", "DDD"], 498001 / 500000⟩) := by
  refine ⟨runA_eq, by decide, ?_⟩
  rw [congrArg Prod.fst grTwoComp_eq]
  exact bfD_finished

/-- C8 (amended): the detection call is a pure function of the table
snapshot and the start-vertex enumeration order — two runs with the same
snapshot AND the same enumeration order return identical results.  The code
draws that order from an unordered Python `set`, so only this
order-relative determinism holds (see the counterexample for
order-dependence). -/
theorem bf_deterministic (tbl1 tbl2 : Table) (o1 o2 : List String)
    (ht : tbl1 = tbl2) (ho : o1 = o2) :
    run_bellman_ford_arbitrage_check tbl1 o1
      = run_bellman_ford_arbitrage_check tbl2 o2 := by
  subst ht
  subst ho
  rfl

/-- Witness for C8 (amended) at a concrete snapshot and order. -/
theorem bf_deterministic_witness :
    run_bellman_ford_arbitrage_check tblTwoComp orderA
      = run_bellman_ford_arbitrage_check tblTwoComp orderA :=
  bf_deterministic tblTwoComp tblTwoComp orderA orderA rfl rfl

/-- Counterexample to C8 as stated: `orderA` and `orderB` are two
enumeration orders of the same currency set of the same table snapshot, yet
the detection call returns absent under one and emits a cycle under the
other — identical snapshots do not guarantee identical results, because the
start-vertex order comes from an unordered set. -/
theorem bf_order_dependent_cex :
    orderA.Perm orderB
    ∧ orderA.Perm (buildGraphCurrencies tblTwoComp).2
    ∧ run_bellman_ford_arbitrage_check tblTwoComp orderA
      ≠ run_bellman_ford_arbitrage_check tblTwoComp orderB := by
  refine ⟨by decide, ?_, ?_⟩
  · rw [congrArg Prod.snd grTwoComp_eq]
  · rw [runA_eq, runB_eq]
    simp

/-- The virtual wallet `paper_balances`: currency to balance, insertion
order. -/
abbrev Balances := List (String × ℚ)

/-- Python `balances.get(c, 0)`. -/
def balGet (b : Balances) (c : String) : ℚ := dictGet b c 0

/-- One entry of the PaperTrader's `trade_log`. -/
structure TradeRecord where
  timestamp : ℤ
  strategy : String
  path : String
  initial_amount : ℚ
  final_amount : ℚ
  net_profit : ℚ
  balances_after : Balances
deriving DecidableEq

/-- The `PaperTrader` state: virtual balances and the trade log. -/
structure PaperTrader where
  balances : Balances
  trade_log : List TradeRecord
deriving DecidableEq

set_option linter.unusedVariables false in
/-- Transcription of `PaperTrader.execute_triangular_trade`: reject (leaving
the state untouched) on insufficient balance in the starting currency,
otherwise simulate the three conversions arithmetically at a 0.1% fee per
leg and write only the net result back to currency `A` (the `net_profit`
argument is only printed by the Python code, never used). -/
def execute_triangular_trade (st : PaperTrader)
    (triplet : String × String × String)
    (trade_amount rate_AB rate_BC rate_CA net_profit : ℚ) (timestamp : ℤ) :
    PaperTrader :=
  match triplet with
  | (A, B, C) =>
    if balGet st.balances A < trade_amount then st
    else
      let amount_B := trade_amount * rate_AB * (1 - 1 / 1000)
      let amount_C := amount_B * rate_BC * (1 - 1 / 1000)
      let final_amount_A := amount_C * rate_CA * (1 - 1 / 1000)
      let old_balance := balGet st.balances A
      let balances :=
        dictSet st.balances A (old_balance - trade_amount + final_amount_A)
      ⟨balances,
       st.trade_log ++
         [⟨timestamp, "Triangular",
           A ++ " -> " ++ B ++ " -> " ++ C ++ " -> " ++ A, trade_amount,
           final_amount_A, final_amount_A - trade_amount, balances⟩]⟩

/-- Transcription of `PaperTrader.execute_cycle_trade`: `cycle[0]` raises on
an empty cycle (modelled as `none`); otherwise reject on insufficient
balance, else credit the assumed-perfect final amount to the starting
currency. -/
def execute_cycle_trade (st : PaperTrader) (cycle : List String)
    (trade_amount net_profit : ℚ) (timestamp : ℤ) : Option PaperTrader :=
  match cycle with
  | [] => none
  | start_currency :: _ =>
    if balGet st.balances start_currency < trade_amount then some st
    else
      let final_amount := trade_amount * (1 + net_profit)
      let old_balance := balGet st.balances start_currency
      let balances :=
        dictSet st.balances start_currency
          (old_balance - trade_amount + final_amount)
      some ⟨balances,
        st.trade_log ++
          [⟨timestamp, "BellmanFord",
            String.intercalate " -> " cycle ++ " -> " ++ start_currency,
            trade_amount, final_amount, final_amount - trade_amount,
            balances⟩]⟩

/-- C9: for both notification operations, an insufficient balance in the
starting currency rejects the trade and leaves the ledger wholly unchanged —
no balance is modified and no trade-log entry is appended; the notification
is atomic. -/
theorem trade_rejection_atomic :
    (∀ (st : PaperTrader) (A B C : String) (amt r1 r2 r3 np : ℚ) (ts : ℤ),
      balGet st.balances A < amt →
      execute_triangular_trade st (A, B, C) amt r1 r2 r3 np ts = st)
    ∧ (∀ (st : PaperTrader) (c : String) (rest : List String) (amt np : ℚ)
        (ts : ℤ), balGet st.balances c < amt →
      execute_cycle_trade st (c :: rest) amt np ts = some st) := by
  constructor
  · intro st A B C amt r1 r2 r3 np ts h
    unfold execute_triangular_trade
    change (if balGet st.balances A < amt then st else _) = st
    rw [if_pos h]
  · intro st c rest amt np ts h
    unfold execute_cycle_trade
    change (if balGet st.balances c < amt then some st else _) = some st
    rw [if_pos h]

/-- A wallet holding 50 USDT. -/
def stSmall : PaperTrader := ⟨[("USDT", 50)], []⟩

/-- Witness for C9: a 100-unit trade against a 50-unit balance is rejected
by both operations and the ledger is returned unchanged. -/
theorem trade_rejection_atomic_witness :
    execute_triangular_trade stSmall ("USDT", "BTC", "ETH") 100 2 3 4 (1 / 10) 0
      = stSmall
    ∧ execute_cycle_trade stSmall ["USDT", "BTC"] 100 (1 / 10) 0
      = some stSmall := by
  constructor
  · exact trade_rejection_atomic.1 stSmall "USDT" "BTC" "ETH" 100 2 3 4
      (1 / 10) 0 (by with_unfolding_all decide)
  · exact trade_rejection_atomic.2 stSmall "USDT" ["BTC"] 100 (1 / 10) 0
      (by with_unfolding_all decide)

theorem find?_key_map_set {α : Type} (m : List (String × α)) (k k2 : String)
    (v : α) (h : k2 ≠ k) :
    (m.map (fun e => if e.1 = k then (e.1, v) else e)).find?
        (fun e => e.1 = k2)
      = m.find? (fun e => e.1 = k2) := by
  induction m with
  | nil => rfl
  | cons e m ih =>
    rw [List.map_cons]
    by_cases hek2 : e.1 = k2
    · have hek : ¬ e.1 = k := by
        rw [hek2]
        exact h
      rw [if_neg hek]
      rw [List.find?_cons_of_pos _ (by simpa using hek2),
        List.find?_cons_of_pos _ (by simpa using hek2)]
    · by_cases hek : e.1 = k
      · rw [if_pos hek]
        rw [List.find?_cons_of_neg _ (by simpa using hek2),
          List.find?_cons_of_neg _ (by simpa using hek2), ih]
      · rw [if_neg hek]
        rw [List.find?_cons_of_neg _ (by simpa using hek2),
          List.find?_cons_of_neg _ (by simpa using hek2), ih]

theorem dictGet_dictSet_ne {α : Type} (m : List (String × α)) (k k2 : String)
    (v d : α) (h : k2 ≠ k) : dictGet (dictSet m k v) k2 d = dictGet m k2 d := by
  unfold dictSet
  by_cases hc : m.any (fun e => e.1 = k)
  · rw [if_pos hc]
    unfold dictGet
    rw [find?_key_map_set m k k2 v h]
  · rw [if_neg hc]
    unfold dictGet
    rw [List.find?_append]
    have hone : (([(k, v)] : List (String × α)).find? (fun e => e.1 = k2))
        = none := by
      rw [List.find?_cons_of_neg _ (by simp; exact fun he => h he.symm)]
      rfl
    rw [hone]
    cases m.find? (fun e => e.1 = k2) <;> rfl

theorem dictGet_dictSet_self {α : Type} : ∀ (m : List (String × α))
    (k : String) (v d : α), dictGet (dictSet m k v) k d = v := by
  intro m
  induction m with
  | nil =>
    intro k v d
    unfold dictSet dictGet
    simp
  | cons e m ih =>
    intro k v d
    unfold dictSet
    by_cases hek : e.1 = k
    · rw [if_pos (by simp [List.any_cons, hek])]
      rw [List.map_cons, if_pos hek]
      unfold dictGet
      rw [List.find?_cons_of_pos _ (by simpa using hek)]
      rfl
    · by_cases hc : (e :: m).any (fun x => x.1 = k)
      · rw [if_pos hc]
        rw [List.map_cons, if_neg hek]
        have hcm : m.any (fun x => x.1 = k) = true := by
          rcases List.any_eq_true.mp hc with ⟨x, hx, hxk⟩
          rcases List.mem_cons.mp hx with h1 | h1
          · exact absurd (of_decide_eq_true (h1 ▸ hxk)) hek
          · exact List.any_eq_true.mpr ⟨x, h1, hxk⟩
        have := ih k v d
        unfold dictSet at this
        rw [if_pos hcm] at this
        unfold dictGet at this ⊢
        rw [List.find?_cons_of_neg _ (by simpa using hek)]
        exact this
      · rw [if_neg hc]
        have hcm : ¬ m.any (fun x => x.1 = k) = true := by
          intro hm
          rcases List.any_eq_true.mp hm with ⟨x, hx, hxk⟩
          exact hc (List.any_eq_true.mpr ⟨x, List.mem_cons_of_mem e hx, hxk⟩)
        have := ih k v d
        unfold dictSet at this
        rw [if_neg hcm] at this
        unfold dictGet at this ⊢
        rw [List.cons_append, List.find?_cons_of_neg _ (by simpa using hek)]
        exact this

/-- C10: when the triangular trade executes (sufficient balance in the
starting currency A), only A's balance changes — every other currency,
including the intermediates B and C, keeps its balance, because the two
intermediate conversions are simulated arithmetically and only the net
result `old - amount + amount * r1 * r2 * r3 * (1 - 0.001)^3` is written
back to A. -/
theorem triangular_trade_frame (st : PaperTrader) (A B C X : String)
    (amt r1 r2 r3 np : ℚ) (ts : ℤ)
    (hsuff : ¬ balGet st.balances A < amt) (hX : X ≠ A) :
    balGet (execute_triangular_trade st (A, B, C) amt r1 r2 r3 np ts).balances
        X = balGet st.balances X
    ∧ balGet (execute_triangular_trade st (A, B, C) amt r1 r2 r3 np
          ts).balances A
      = balGet st.balances A - amt
        + amt * r1 * (1 - 1 / 1000) * r2 * (1 - 1 / 1000) * r3
          * (1 - 1 / 1000) := by
  constructor
  · unfold execute_triangular_trade
    change balGet
      (if balGet st.balances A < amt then st else _).balances X = _
    rw [if_neg hsuff]
    show balGet (dictSet st.balances A (balGet st.balances A - amt
      + amt * r1 * (1 - 1 / 1000) * r2 * (1 - 1 / 1000) * r3
        * (1 - 1 / 1000))) X = balGet st.balances X
    unfold balGet
    exact dictGet_dictSet_ne st.balances A X _ 0 hX
  · unfold execute_triangular_trade
    change balGet
      (if balGet st.balances A < amt then st else _).balances A = _
    rw [if_neg hsuff]
    show balGet (dictSet st.balances A (balGet st.balances A - amt
      + amt * r1 * (1 - 1 / 1000) * r2 * (1 - 1 / 1000) * r3
        * (1 - 1 / 1000))) A = _
    unfold balGet
    exact dictGet_dictSet_self st.balances A _ 0

/-- A wallet holding two currencies. -/
def stTwoCur : PaperTrader := ⟨[("USD", 200), ("EUR", 5)], []⟩

/-- Witness for C10: an executed trade from USD leaves the EUR balance
untouched and nets the exact arithmetic result back into USD. -/
theorem triangular_trade_frame_witness :
    balGet (execute_triangular_trade stTwoCur ("USD", "AAA", "BBB") 100 2 3 4
        (1 / 10) 0).balances "EUR" = balGet stTwoCur.balances "EUR"
    ∧ balGet (execute_triangular_trade stTwoCur ("USD", "AAA", "BBB") 100 2 3
        4 (1 / 10) 0).balances "USD"
      = balGet stTwoCur.balances "USD" - 100
        + 100 * 2 * (1 - 1 / 1000) * 3 * (1 - 1 / 1000) * 4
          * (1 - 1 / 1000) :=
  triangular_trade_frame stTwoCur "USD" "AAA" "BBB" "EUR" 100 2 3 4 (1 / 10) 0
    (by with_unfolding_all decide) (by decide)

end CryptoArb
